import Mathlib

/-!
Layout of `c-sizer.c` (`src/s01/c-sizer.c`).

A shallow embedding of `spec_size` and `spec_print`, and the properties of the
struct-layout computation they implement.

Conventions of the embedding:

* a `const char*` argument is the list of the characters that precede its
  terminating NUL;
* `spec_size_int` is the function `spec_size` of the source on machine integers: the
  accumulator `int size` is a 32-bit two's-complement integer, and the index `int i`
  may not be incremented past `INT_MAX` (the result is `none` when it would be);
* `spec_size` is the same loop in unbounded natural numbers; on every string shorter
  than `2 ^ 31` characters the source returns that value converted to `int` and back to
  `size_t` (`spec_size_int_eq_wrap`), hence that value itself when it is below `2 ^ 31`
  (`spec_size_int_of_fit`), which covers every string `spec_print` and `main` can pass;
* `sizeof`/`__alignof__` are the x86-64 constants the source's doc comment fixes
  ("as compiled on an x86-64 machine");
* addresses are natural numbers.
-/

namespace CSizer

/-! ## The target data model -/

/-- Modelled from the spec: `sizeof(char)` on the 64-bit target (alphabet table of §6). -/
def sizeof_char : Nat := 1
/-- Modelled from the spec: `__alignof__(char)` on the 64-bit target. -/
def alignof_char : Nat := 1
/-- Modelled from the spec: `sizeof(short)` on the 64-bit target. -/
def sizeof_short : Nat := 2
/-- Modelled from the spec: `__alignof__(short)` on the 64-bit target. -/
def alignof_short : Nat := 2
/-- Modelled from the spec: `sizeof(int)` on the 64-bit target. -/
def sizeof_int : Nat := 4
/-- Modelled from the spec: `__alignof__(int)` on the 64-bit target. -/
def alignof_int : Nat := 4
/-- Modelled from the spec: `sizeof(long)` on the 64-bit target. -/
def sizeof_long : Nat := 8
/-- Modelled from the spec: `__alignof__(long)` on the 64-bit target. -/
def alignof_long : Nat := 8
/-- Modelled from the spec: `sizeof(size_t)` on the 64-bit target. -/
def sizeof_size_t : Nat := 8
/-- Modelled from the spec: `__alignof__(size_t)` on the 64-bit target. -/
def alignof_size_t : Nat := 8
/-- Modelled from the spec: `sizeof(float)` on the 64-bit target. -/
def sizeof_float : Nat := 4
/-- Modelled from the spec: `__alignof__(float)` on the 64-bit target. -/
def alignof_float : Nat := 4
/-- Modelled from the spec: `sizeof(double)` on the 64-bit target. -/
def sizeof_double : Nat := 8
/-- Modelled from the spec: `__alignof__(double)` on the 64-bit target. -/
def alignof_double : Nat := 8
/-- Modelled from the spec: `sizeof(void*)` on the 64-bit target. -/
def sizeof_ptr : Nat := 8
/-- Modelled from the spec: `__alignof__(void*)` on the 64-bit target. -/
def alignof_ptr : Nat := 8

/-! ## `spec_size` -/

/-- The body shared by the eight branches of `spec_size`, for a member type of
size `sz` and alignment `al`:
```
if (size % __alignof__(T) != 0) { size += sizeof(T) - size % __alignof__(T); }
size += sizeof(T);
```
For each of the eight member types `sizeof(T)` is at least `__alignof__(T)`, so the
subtraction does not wrap. -/
def add_member (size sz al : Nat) : Nat :=
  let size := if size % al ≠ 0 then size + (sz - size % al) else size
  size + sz

/-- One iteration of the `while` loop of `spec_size` on the character `c`: the
`if`/`else if` chain over the eight codes; any other character leaves `size`
unchanged. -/
def spec_size_step (size : Nat) (c : Char) : Nat :=
  if c = 'c' then add_member size sizeof_char alignof_char
  else if c = 's' then add_member size sizeof_short alignof_short
  else if c = 'i' then add_member size sizeof_int alignof_int
  else if c = 'l' then add_member size sizeof_long alignof_long
  else if c = 'z' then add_member size sizeof_size_t alignof_size_t
  else if c = 'f' then add_member size sizeof_float alignof_float
  else if c = 'd' then add_member size sizeof_double alignof_double
  else if c = 'p' then add_member size sizeof_ptr alignof_ptr
  else size

/-- The `while (spec[i] != 0)` loop of `spec_size` in unbounded natural numbers, started
with accumulator `size` on the characters still to be read. -/
def spec_size_loop : List Char → Nat → Nat
  | [], size => size
  | c :: rest, size => spec_size_loop rest (spec_size_step size c)

/-- The function `spec_size(spec)` in unbounded natural numbers: `size` starts at 0 and the
value left by the loop is returned. It is the value the source returns when `spec` has fewer
than `2 ^ 28` recognised codes and fewer than `2 ^ 31` characters. -/
def spec_size (spec : List Char) : Nat :=
  spec_size_loop spec 0

/-! ## `spec_size` on machine integers

The loop of the source with `int size` and `int i` as 32-bit two's-complement integers. In
`size % __alignof__(T)` and in `size += ...` the `int` is converted to `size_t` (64 bits,
modulo `2 ^ 64`), the arithmetic is done on `size_t`, and the assignment converts the result
back to `int` (modulo `2 ^ 32`). The increment `i++` is defined only while `i < INT_MAX`. -/

/-- The largest value of an `int`. -/
def INT_MAX : Nat := 2 ^ 31 - 1

/-- The conversion of a `size_t` value to `int`: reduction modulo `2 ^ 32` into
`[-2 ^ 31, 2 ^ 31)`. -/
def int_of_size_t (n : Nat) : Int :=
  ((n : Int) + 2 ^ 31) % 2 ^ 32 - 2 ^ 31

/-- The conversion of an `int` to `size_t`: reduction modulo `2 ^ 64`. -/
def size_t_of_int (x : Int) : Nat :=
  (x % 2 ^ 64).toNat

/-- The branch body of `spec_size` on machine integers. -/
def add_member_int (size : Int) (sz al : Nat) : Int :=
  let size :=
    if size_t_of_int size % al ≠ 0 then
      int_of_size_t
        ((size_t_of_int size + (sz + 2 ^ 64 - size_t_of_int size % al) % 2 ^ 64) % 2 ^ 64)
    else size
  int_of_size_t ((size_t_of_int size + sz) % 2 ^ 64)

/-- One iteration of the loop of `spec_size` on machine integers. -/
def spec_size_step_int (size : Int) (c : Char) : Int :=
  if c = 'c' then add_member_int size sizeof_char alignof_char
  else if c = 's' then add_member_int size sizeof_short alignof_short
  else if c = 'i' then add_member_int size sizeof_int alignof_int
  else if c = 'l' then add_member_int size sizeof_long alignof_long
  else if c = 'z' then add_member_int size sizeof_size_t alignof_size_t
  else if c = 'f' then add_member_int size sizeof_float alignof_float
  else if c = 'd' then add_member_int size sizeof_double alignof_double
  else if c = 'p' then add_member_int size sizeof_ptr alignof_ptr
  else size

/-- The loop `while (spec[i] != 0) { ...; i++; }` of `spec_size` on machine integers, at
index `i` with accumulator `size` on the characters still to be read. The result is `none`
when `i++` overflows, which the language leaves undefined. -/
def spec_size_loop_int : List Char → Nat → Int → Option Int
  | [], _, size => some size
  | c :: rest, i, size =>
    if i < INT_MAX then spec_size_loop_int rest (i + 1) (spec_size_step_int size c)
    else none

/-- The function `spec_size(spec)` of the source: `i` and `size` start at 0 and
`return size` converts the `int` to `size_t`. -/
def spec_size_int (spec : List Char) : Option Nat :=
  (spec_size_loop_int spec 0 0).map size_t_of_int

/-! ## The data model of the specification -/

/-- The field kinds of the specification (§3). -/
inductive FieldKind
  | char | short | int | long | size | float | double | pointer
  deriving DecidableEq

namespace FieldKind

/-- The code of a kind in the type-specification alphabet (§6). -/
def code : FieldKind → Char
  | char => 'c' | short => 's' | int => 'i' | long => 'l'
  | size => 'z' | float => 'f' | double => 'd' | pointer => 'p'

/-- The kind a character stands for, `none` when it is not one of the eight codes. -/
def ofCode (c : Char) : Option FieldKind :=
  if c = 'c' then some char
  else if c = 's' then some short
  else if c = 'i' then some int
  else if c = 'l' then some long
  else if c = 'z' then some size
  else if c = 'f' then some float
  else if c = 'd' then some double
  else if c = 'p' then some pointer
  else none

/-- The reference size of a kind, from the alphabet table of §6. -/
def byteSize : FieldKind → Nat
  | char => 1 | short => 2 | int => 4 | long => 8
  | size => 8 | float => 4 | double => 8 | pointer => 8

/-- The reference alignment of a kind, from the alphabet table of §6. -/
def byteAlign : FieldKind → Nat
  | char => 1 | short => 2 | int => 4 | long => 8
  | size => 8 | float => 4 | double => 8 | pointer => 8

end FieldKind

open FieldKind

/-- The specification string of a sequence of kinds: a string over the alphabet. -/
def encode (ks : List FieldKind) : List Char :=
  ks.map code

/-- The recognised codes of a string, in order, as kinds. -/
def parseSpec (spec : List Char) : List FieldKind :=
  spec.filterMap ofCode

/-- Whether a character is one of the eight codes. -/
def recognised (c : Char) : Bool :=
  (ofCode c).isSome

/-- The value of `cursor` rounded up to the next multiple of `align`. -/
def roundUp (cursor align : Nat) : Nat :=
  (cursor + align - 1) / align * align

/-- The operation `computeSize` in the words of §4.1: the cursor starts at 0; for each
field in order it is rounded up to the field's alignment and then advanced by the
field's size; the raw cursor after the last field is the result. -/
def computeSize (ks : List FieldKind) : Nat :=
  ks.foldl (fun cursor k => roundUp cursor (byteAlign k) + byteSize k) 0

/-- The operation `computeOffset` in the words of §4.1: `computeSize` on the prefix
`spec[0..index]` (the field at `index` excluded), then the alignment rounding for the
kind at `index`. One past the end there is a virtual field of alignment 1. -/
def computeOffset (ks : List FieldKind) (index : Nat) : Nat :=
  roundUp (computeSize (ks.take index)) (((ks.get? index).map byteAlign).getD 1)

/-- The position at which the loop of `spec_size` places field `i` of the string of `ks`:
the accumulator after the first `i + 1` codes, less the size of field `i`. -/
def fieldOffset (ks : List FieldKind) (i : Nat) : Nat :=
  spec_size (encode (ks.take (i + 1))) - ((ks.get? i).map byteSize).getD 0

/-- The largest alignment among the fields of a specification (1 when there is none). -/
def maxAlign (ks : List FieldKind) : Nat :=
  ks.foldl (fun m k => max m (byteAlign k)) 1

/-- The sum of the sizes of the fields of a specification. -/
def sumSizes (ks : List FieldKind) : Nat :=
  (ks.map byteSize).sum

/-- The size of the C struct on the target: the offset following the last field, rounded up
to the largest alignment among the fields. -/
def structSize (ks : List FieldKind) : Nat :=
  roundUp (computeSize ks) (maxAlign ks)

/-- A layout `o` of the fields of `ks` satisfies the offset and alignment invariants of §3:
every offset is a multiple of its field's alignment and no field starts before the end of
the field preceding it. -/
def ValidLayout (ks : List FieldKind) (o : Nat → Nat) : Prop :=
  (∀ i, ∀ h : i < ks.length, o i % byteAlign (ks.get ⟨i, h⟩) = 0) ∧
  (∀ i, ∀ h : i + 1 < ks.length,
    o i + byteSize (ks.get ⟨i, Nat.lt_of_succ_lt h⟩) ≤ o (i + 1))

/-- The position at which the source's `spec_size` places field `i` of the string of `ks`:
the value returned on the first `i + 1` codes, less the size of field `i`. -/
def fieldOffset_int (ks : List FieldKind) (i : Nat) : Option Nat :=
  (spec_size_int (encode (ks.take (i + 1)))).map
    (fun size => size - ((ks.get? i).map byteSize).getD 0)

/-- The prefix replay on the source's `spec_size`: the value returned on the first `index`
codes, rounded up to the alignment of the field at `index` (1 past the end). -/
def computeOffset_int (ks : List FieldKind) (index : Nat) : Option Nat :=
  (spec_size_int (encode (ks.take index))).map
    (fun size => roundUp size (((ks.get? index).map byteAlign).getD 1))

/-! ## `spec_print` -/

/-- The NUL character that terminates a C string. -/
def NUL : Char := Char.ofNat 0

/-- The second argument of a `printf` call of `spec_print`. -/
inductive Rendered
  /-- The value `*((T*)data + progress)`: `width` bytes read from memory at `addr`. -/
  | load (addr width : Nat)
  /-- The value `((char*)data + progress)` of the pointer branch: the address `addr` itself;
  memory is not read. -/
  | address (addr : Nat)
  deriving DecidableEq

/-- One line printed by `spec_print`. -/
structure PrintLine where
  /-- The first argument, printed with `%p`: `&data + progress`. -/
  printed : Nat
  /-- The kind name in the format string. -/
  kindName : String
  /-- The second argument. -/
  value : Rendered
  deriving DecidableEq

/-- The address of the value a line renders. -/
def PrintLine.valueAddr (l : PrintLine) : Nat :=
  match l.value with
  | .load addr _ => addr
  | .address addr => addr

/-- The number of bytes of memory a line reads. -/
def PrintLine.bytesRead (l : PrintLine) : Nat :=
  match l.value with
  | .load _ width => width
  | .address _ => 0

/-- The kind name and the second `printf` argument of the branch of `spec_print` for the
character `c`, `none` when no branch is taken. `(T*)data + progress` is pointer arithmetic
on a `T*`: it advances `data` by `progress * sizeof(T)` bytes. -/
def print_branch (c : Char) (data progress : Nat) : Option (String × Rendered) :=
  if c = 'c' then some ("char", .load (data + progress * sizeof_char) sizeof_char)
  else if c = 's' then some ("short", .load (data + progress * sizeof_short) sizeof_short)
  else if c = 'i' then some ("int", .load (data + progress * sizeof_int) sizeof_int)
  else if c = 'l' then some ("long", .load (data + progress * sizeof_long) sizeof_long)
  else if c = 'z' then some ("size_t", .load (data + progress * sizeof_size_t) sizeof_size_t)
  else if c = 'f' then some ("float", .load (data + progress * sizeof_float) sizeof_float)
  else if c = 'd' then some ("double", .load (data + progress * sizeof_double) sizeof_double)
  else if c = 'p' then some ("pointer", .address (data + progress * sizeof_char))
  else none

/-- The C string held by a buffer: the characters before its first NUL; `none` when the
buffer holds no NUL, so that a reader runs past its end. -/
def cstring (buf : List Char) : Option (List Char) :=
  if NUL ∈ buf then some (buf.takeWhile (fun c => c != NUL)) else none

/-- The buffer `calloc(64, sizeof(char))` of `spec_print`. -/
def checker_init : List Char :=
  List.replicate 64 NUL

/-- The `while` loop of `spec_print` on the characters still to be read, at index `i`, with
the accumulator `progress` and the buffer `checker`. `data` is the pointer passed in and
`dataAddr` the address of the parameter `data` itself, so that `&data + progress` is
`dataAddr + progress * sizeof(void*)`. The result is the list of the lines printed, `none`
when `checker[i]` is written outside the buffer or `spec_size(checker)` reads past it. -/
def spec_print_loop (data dataAddr : Nat) :
    List Char → Nat → Nat → List Char → Option (List PrintLine)
  | [], _, _, _ => some []
  | c :: rest, i, progress, checker =>
    match print_branch c data progress with
    | none => spec_print_loop data dataAddr rest (i + 1) progress checker
    | some (name, value) =>
      if i < checker.length then
        let checker := checker.set i c
        match cstring checker with
        | none => none
        | some str =>
          (spec_print_loop data dataAddr rest (i + 1) (progress + spec_size str) checker).map
            (fun lines => ⟨dataAddr + progress * sizeof_ptr, name, value⟩ :: lines)
      else none

/-- The function `spec_print(spec, data)`: `i` and `progress` start at 0, `checker` zeroed. -/
def spec_print (spec : List Char) (data dataAddr : Nat) : Option (List PrintLine) :=
  spec_print_loop data dataAddr spec 0 0 checker_init

/-- The index of the last byte `spec_size(buf)` reads from a buffer: the index of the NUL
that stops its loop, which is the length of the buffer when the buffer holds no NUL. -/
def scan_end (buf : List Char) : Nat :=
  (buf.takeWhile (fun c => c != NUL)).length

/-- The indices used on `checker` by the loop of `spec_print`, one pair for each iteration
that takes a branch: the index `i` of the write `checker[i] = spec[i]` and the index of the
last byte read by `spec_size(checker)` after it. -/
def checker_trace : List Char → Nat → List Char → List (Nat × Nat)
  | [], _, _ => []
  | c :: rest, i, checker =>
    match ofCode c with
    | none => checker_trace rest (i + 1) checker
    | some _ =>
      let checker := checker.set i c
      (i, scan_end checker) :: checker_trace rest (i + 1) checker

/-- The value of `width` bytes of memory at `addr`, least significant byte first; `mem`
gives the byte stored at each address. -/
def read_le (mem : Nat → Nat) (addr : Nat) : Nat → Nat
  | 0 => 0
  | width + 1 => mem addr % 256 + 256 * read_le mem (addr + 1) width

/-- The second argument of a line in the memory `mem`, as the unsigned number its bytes
spell: for a load the bytes read, least significant first (the signed or floating reading
that the format applies to them is not modelled), for the pointer branch the address. -/
def Rendered.eval (mem : Nat → Nat) : Rendered → Nat
  | .load addr width => read_le mem addr width
  | .address addr => addr

/-! ## `main` -/

/-- A line of the output of the program. -/
inductive OutputLine
  /-- A line printed by the `printf` of `main`, without its newline. -/
  | size_line (text : List Char)
  /-- A line printed by `spec_print`. -/
  | field_line (line : PrintLine)
  deriving DecidableEq

/-- The conversion `%8zu`: the decimal digits of `n`, right-justified in a field of width 8
padded with spaces. -/
def format_zu8 (n : Nat) : List Char :=
  let digits := Nat.toDigits 10 n
  List.replicate (8 - digits.length) ' ' ++ digits

/-- The text `printf("%8zu %s\n", spec_size(arg), arg)` prints, without the newline. -/
def format_size_line (arg : List Char) : List Char :=
  format_zu8 (spec_size arg) ++ ' ' :: arg

/-- The `for` loop of `main` on the arguments `argv[i], ..., argv[argc - 1]`. Each iteration
prints the size line of the argument and calls `spec_print("ci", &x)`; `xAddr` is the
address of the local struct `x` and `dataAddr` the address of the parameter `data` of
`spec_print`. -/
def main_loop (xAddr dataAddr : Nat) : List (List Char) → Option (List OutputLine)
  | [] => some []
  | arg :: rest =>
    match spec_print ['c', 'i'] xAddr dataAddr with
    | none => none
    | some lines =>
      (main_loop xAddr dataAddr rest).map
        (fun out => OutputLine.size_line (format_size_line arg) ::
          (lines.map OutputLine.field_line ++ out))

/-- The function `main` on the arguments `argv[1], ..., argv[argc - 1]`: the lines printed. -/
def main (args : List (List Char)) (xAddr dataAddr : Nat) : Option (List OutputLine) :=
  main_loop xAddr dataAddr args

/-- The alignments of the fields of a specification do not increase from left to right. -/
def alignNonIncreasing : List FieldKind → Bool
  | a :: b :: rest => decide (byteAlign b ≤ byteAlign a) && alignNonIncreasing (b :: rest)
  | _ => true

/-! ## Lemmas on one member -/

theorem roundUp_eq_of_dvd (cursor align : Nat) (h : cursor % align = 0) :
    roundUp cursor align = cursor := by
  unfold roundUp
  rcases Nat.eq_zero_or_pos align with h0 | hpos
  · subst h0
    simp at h
    simp [h]
  · obtain ⟨q, rfl⟩ := Nat.dvd_of_mod_eq_zero h
    have h1 : align * q + align - 1 = align - 1 + align * q := by omega
    rw [h1, Nat.add_mul_div_left _ _ hpos, Nat.div_eq_of_lt (by omega)]
    simp [Nat.mul_comm]

theorem roundUp_eq_of_not_dvd (cursor align : Nat) (hpos : 0 < align)
    (h : cursor % align ≠ 0) : roundUp cursor align = cursor + (align - cursor % align) := by
  unfold roundUp
  have hlt := Nat.mod_lt cursor hpos
  have hdm := Nat.div_add_mod cursor align
  have h1 : cursor + align - 1 = (cursor % align - 1) + align * (cursor / align + 1) := by
    rw [Nat.mul_add]
    omega
  rw [h1, Nat.add_mul_div_left _ _ hpos, Nat.div_eq_of_lt (by omega), Nat.zero_add,
    Nat.add_mul, Nat.mul_comm]
  omega

/-- The branch body of `spec_size` rounds the accumulator up to the alignment and adds the
size, whenever the size and the alignment of the member type coincide. -/
theorem add_member_eq_roundUp (size al : Nat) (hpos : 0 < al) :
    add_member size al al = roundUp size al + al := by
  unfold add_member
  by_cases h : size % al = 0
  · simp [h, roundUp_eq_of_dvd size al h]
  · simp [h, roundUp_eq_of_not_dvd size al hpos h]

theorem roundUp_mod (cursor align : Nat) : roundUp cursor align % align = 0 := by
  unfold roundUp
  exact Nat.mul_mod_left _ _

theorem le_roundUp (cursor align : Nat) (hpos : 0 < align) : cursor ≤ roundUp cursor align := by
  by_cases h : cursor % align = 0
  · rw [roundUp_eq_of_dvd cursor align h]
  · rw [roundUp_eq_of_not_dvd cursor align hpos h]
    omega

theorem roundUp_le_of_dvd (cursor align m : Nat) (hpos : 0 < align) (hle : cursor ≤ m)
    (hm : m % align = 0) : roundUp cursor align ≤ m := by
  obtain ⟨q, rfl⟩ := Nat.dvd_of_mod_eq_zero hm
  unfold roundUp
  have h1 : (cursor + align - 1) / align ≤ q := by
    apply Nat.le_of_lt_succ
    rw [Nat.div_lt_iff_lt_mul hpos, Nat.succ_mul, Nat.mul_comm]
    omega
  calc (cursor + align - 1) / align * align ≤ q * align := Nat.mul_le_mul_right _ h1
    _ = align * q := Nat.mul_comm _ _

theorem byteAlign_pos (k : FieldKind) : 0 < byteAlign k := by
  cases k <;> decide

theorem byteSize_pos (k : FieldKind) : 0 < byteSize k := by
  cases k <;> decide

theorem ofCode_code (k : FieldKind) : ofCode (code k) = some k := by
  cases k <;> decide

theorem code_of_ofCode (c : Char) (k : FieldKind) (h : ofCode c = some k) : code k = c := by
  unfold ofCode at h
  split_ifs at h <;> simp at h <;> subst h <;> simp [code, *]

/-- One iteration of `spec_size` on a recognised code rounds up and adds the reference size;
on any other character it leaves the accumulator unchanged. -/
theorem spec_size_step_eq (size : Nat) (c : Char) :
    spec_size_step size c =
      match ofCode c with
      | some k => roundUp size (byteAlign k) + byteSize k
      | none => size := by
  unfold spec_size_step ofCode
  split_ifs <;>
    simp [byteSize, byteAlign, sizeof_char, alignof_char, sizeof_short, alignof_short,
      sizeof_int, alignof_int, sizeof_long, alignof_long, sizeof_size_t, alignof_size_t,
      sizeof_float, alignof_float, sizeof_double, alignof_double, sizeof_ptr, alignof_ptr,
      add_member_eq_roundUp]

theorem spec_size_step_code (size : Nat) (k : FieldKind) :
    spec_size_step size (code k) = roundUp size (byteAlign k) + byteSize k := by
  rw [spec_size_step_eq, ofCode_code]

theorem spec_size_loop_eq_foldl (spec : List Char) (size : Nat) :
    spec_size_loop spec size =
      (parseSpec spec).foldl (fun cursor k => roundUp cursor (byteAlign k) + byteSize k) size := by
  induction spec generalizing size with
  | nil => rfl
  | cons c rest ih =>
    rw [spec_size_loop, ih, spec_size_step_eq]
    unfold parseSpec
    cases hc : ofCode c with
    | none => simp [List.filterMap_cons, hc]
    | some k => simp [List.filterMap_cons, hc]

theorem parseSpec_encode (ks : List FieldKind) : parseSpec (encode ks) = ks := by
  induction ks with
  | nil => rfl
  | cons k rest ih =>
    unfold parseSpec encode at *
    simp [List.filterMap_cons, ofCode_code, ih]

theorem spec_size_eq_computeSize (spec : List Char) :
    spec_size spec = computeSize (parseSpec spec) := by
  unfold spec_size computeSize
  exact spec_size_loop_eq_foldl spec 0

theorem spec_size_encode (ks : List FieldKind) : spec_size (encode ks) = computeSize ks := by
  rw [spec_size_eq_computeSize, parseSpec_encode]

theorem computeSize_concat (ks : List FieldKind) (k : FieldKind) :
    computeSize (ks ++ [k]) = roundUp (computeSize ks) (byteAlign k) + byteSize k := by
  unfold computeSize
  rw [List.foldl_append]
  rfl

theorem computeSize_take_succ (ks : List FieldKind) (i : Nat) (h : i < ks.length) :
    computeSize (ks.take (i + 1)) =
      roundUp (computeSize (ks.take i)) (byteAlign (ks.get ⟨i, h⟩)) +
        byteSize (ks.get ⟨i, h⟩) := by
  have ht : ks.take (i + 1) = ks.take i ++ [ks.get ⟨i, h⟩] := by
    rw [List.take_succ, List.getElem?_eq_getElem h]
    rfl
  rw [ht, computeSize_concat]

theorem computeOffset_of_lt (ks : List FieldKind) (i : Nat) (h : i < ks.length) :
    computeOffset ks i = roundUp (computeSize (ks.take i)) (byteAlign (ks.get ⟨i, h⟩)) := by
  unfold computeOffset
  simp [List.getElem?_eq_getElem h]

theorem fieldOffset_eq_computeOffset (ks : List FieldKind) (i : Nat) (h : i < ks.length) :
    fieldOffset ks i = computeOffset ks i := by
  unfold fieldOffset
  rw [spec_size_encode, computeSize_take_succ ks i h, computeOffset_of_lt ks i h]
  simp [List.getElem?_eq_getElem h]

theorem computeOffset_zero (ks : List FieldKind) : computeOffset ks 0 = 0 := by
  unfold computeOffset
  rw [List.take_zero]
  exact roundUp_eq_of_dvd 0 _ (Nat.zero_mod _)

theorem computeSize_ge_add_sumSizes (ks : List FieldKind) (cursor : Nat) :
    cursor + sumSizes ks ≤
      ks.foldl (fun cursor k => roundUp cursor (byteAlign k) + byteSize k) cursor := by
  induction ks generalizing cursor with
  | nil => simp [sumSizes]
  | cons k rest ih =>
    have h1 := le_roundUp cursor (byteAlign k) (byteAlign_pos k)
    have h2 := ih (roundUp cursor (byteAlign k) + byteSize k)
    simp only [List.foldl_cons]
    simp only [sumSizes, List.map_cons, List.sum_cons] at h2 ⊢
    omega

/-- The offsets at which `spec_size` places the fields form a valid layout. -/
theorem validLayout_fieldOffset (ks : List FieldKind) : ValidLayout ks (fieldOffset ks) := by
  constructor
  · intro i h
    rw [fieldOffset_eq_computeOffset ks i h, computeOffset_of_lt ks i h]
    exact roundUp_mod _ _
  · intro i h
    have hi : i < ks.length := Nat.lt_of_succ_lt h
    rw [fieldOffset_eq_computeOffset ks i hi, fieldOffset_eq_computeOffset ks (i + 1) h,
      computeOffset_of_lt ks (i + 1) h, computeSize_take_succ ks i hi,
      computeOffset_of_lt ks i hi]
    exact le_roundUp _ _ (byteAlign_pos _)

/-- Every valid layout places each field at or after the offset `computeOffset` gives it. -/
theorem computeOffset_le_of_validLayout (ks : List FieldKind) (o : Nat → Nat)
    (hv : ValidLayout ks o) (i : Nat) (h : i < ks.length) : computeOffset ks i ≤ o i := by
  induction i with
  | zero => simp [computeOffset_zero]
  | succ j ih =>
    have hj : j < ks.length := Nat.lt_of_succ_lt h
    rw [computeOffset_of_lt ks (j + 1) h, computeSize_take_succ ks j hj,
      ← computeOffset_of_lt ks j hj]
    apply roundUp_le_of_dvd _ _ _ (byteAlign_pos _)
    · have h1 := ih hj
      have h2 := hv.2 j h
      omega
    · exact hv.1 (j + 1) h

theorem spec_size_loop_append (s t : List Char) (size : Nat) :
    spec_size_loop (s ++ t) size = spec_size_loop t (spec_size_loop s size) := by
  induction s generalizing size with
  | nil => rfl
  | cons c rest ih => simp [spec_size_loop, ih]

theorem parseSpec_filter (s : List Char) : parseSpec (s.filter recognised) = parseSpec s := by
  induction s with
  | nil => rfl
  | cons c rest ih =>
    unfold parseSpec at *
    cases hc : ofCode c with
    | none => simp [List.filter_cons, recognised, hc, ih]
    | some k => simp [List.filter_cons, recognised, hc, ih]

/-! ## Agreement of the machine-integer loop with the unbounded one -/

theorem size_t_of_int_natCast (n : Nat) (h : n < 2 ^ 31) : size_t_of_int (n : Int) = n := by
  unfold size_t_of_int
  omega

theorem int_add_size_t (n k : Nat) (h : n + k < 2 ^ 31) :
    int_of_size_t ((size_t_of_int (n : Int) + k) % 2 ^ 64) = ((n + k : Nat) : Int) := by
  rw [size_t_of_int_natCast n (by omega)]
  unfold int_of_size_t
  omega

theorem add_member_int_eq (n al : Nat) (hpos : 0 < al) (h8 : al ≤ 8) (h : n + 16 ≤ 2 ^ 31) :
    add_member_int (n : Int) al al = (add_member n al al : Int) := by
  have hr := Nat.mod_lt n hpos
  unfold add_member_int add_member
  rw [size_t_of_int_natCast n (by omega)]
  by_cases h0 : n % al = 0
  · simp only [h0, ne_eq, not_true_eq_false, if_false]
    exact int_add_size_t n al (by omega)
  · simp only [h0, ne_eq, not_false_eq_true, if_true]
    have e1 : (al + 2 ^ 64 - n % al) % 2 ^ 64 = al - n % al := by omega
    have e2 : int_of_size_t ((n + (al + 2 ^ 64 - n % al) % 2 ^ 64) % 2 ^ 64) =
        ((n + (al - n % al) : Nat) : Int) := by
      have h2 := int_add_size_t n (al - n % al) (by omega)
      rw [size_t_of_int_natCast n (by omega)] at h2
      rw [e1]
      exact h2
    rw [e2]
    exact int_add_size_t _ al (by omega)

theorem spec_size_step_int_branch (size : Int) (c : Char) :
    spec_size_step_int size c =
      match ofCode c with
      | some k => add_member_int size (byteSize k) (byteAlign k)
      | none => size := by
  unfold spec_size_step_int ofCode
  split_ifs <;> rfl

theorem spec_size_step_branch (size : Nat) (c : Char) :
    spec_size_step size c =
      match ofCode c with
      | some k => add_member size (byteSize k) (byteAlign k)
      | none => size := by
  unfold spec_size_step ofCode
  split_ifs <;> rfl

theorem spec_size_step_int_eq (n : Nat) (c : Char)
    (h : recognised c = true → n + 16 ≤ 2 ^ 31) :
    spec_size_step_int (n : Int) c = (spec_size_step n c : Int) := by
  rw [spec_size_step_int_branch, spec_size_step_branch]
  unfold recognised at h
  cases hc : ofCode c with
  | none => rfl
  | some k =>
    have h16 : n + 16 ≤ 2 ^ 31 := h (by simp [hc])
    have hk : byteSize k = byteAlign k := by cases k <;> rfl
    have h8 : byteAlign k ≤ 8 := by cases k <;> decide
    simp only [hk]
    exact add_member_int_eq n (byteAlign k) (byteAlign_pos k) h8 h16

theorem roundUp_add_byteSize_le (size j : Nat) (k : FieldKind) (h : size ≤ 8 * j) :
    roundUp size (byteAlign k) + byteSize k ≤ 8 * (j + 1) := by
  unfold roundUp
  cases k <;> simp only [byteAlign, byteSize] <;> omega

theorem spec_size_step_le (size j : Nat) (c : Char) (h : size ≤ 8 * j) :
    spec_size_step size c ≤ 8 * (j + (parseSpec [c]).length) := by
  rw [spec_size_step_eq]
  unfold parseSpec
  cases hc : ofCode c with
  | none => simpa [List.filterMap_cons, hc] using h
  | some k =>
    simp only [List.filterMap_cons, hc, List.filterMap_nil, List.length_singleton]
    exact roundUp_add_byteSize_le size j k h

theorem parseSpec_cons_length (c : Char) (rest : List Char) :
    (parseSpec (c :: rest)).length = (parseSpec [c]).length + (parseSpec rest).length := by
  unfold parseSpec
  cases hc : ofCode c <;> simp [List.filterMap_cons, hc, Nat.add_comm]

theorem spec_size_loop_le (spec : List Char) (size j : Nat) (h : size ≤ 8 * j) :
    spec_size_loop spec size ≤ 8 * (j + (parseSpec spec).length) := by
  induction spec generalizing size j with
  | nil => simpa [spec_size_loop, parseSpec] using h
  | cons c rest ih =>
    have h1 := ih _ _ (spec_size_step_le size j c h)
    rw [parseSpec_cons_length, ← Nat.add_assoc]
    exact h1

theorem spec_size_loop_int_eq_foldl (spec : List Char) (i : Nat) (size : Int)
    (h : i + spec.length ≤ INT_MAX) :
    spec_size_loop_int spec i size = some (spec.foldl spec_size_step_int size) := by
  induction spec generalizing i size with
  | nil => rfl
  | cons c rest ih =>
    simp only [List.length_cons] at h
    have hi : i < INT_MAX := by omega
    rw [spec_size_loop_int, if_pos hi, List.foldl_cons]
    exact ih _ _ (by omega)

theorem spec_size_loop_int_eq_none (spec : List Char) (i : Nat) (size : Int)
    (hi : i ≤ INT_MAX) (h : INT_MAX < i + spec.length) :
    spec_size_loop_int spec i size = none := by
  induction spec generalizing i size with
  | nil =>
    simp only [List.length_nil] at h
    omega
  | cons c rest ih =>
    simp only [List.length_cons] at h
    rw [spec_size_loop_int]
    by_cases hlt : i < INT_MAX
    · rw [if_pos hlt]
      exact ih _ _ (by omega) (by omega)
    · rw [if_neg hlt]

theorem foldl_step_int_eq (spec : List Char) (n j : Nat) (hn : n ≤ 8 * j)
    (hj : j + (parseSpec spec).length < 2 ^ 28) :
    spec.foldl spec_size_step_int (n : Int) = (spec_size_loop spec n : Int) := by
  induction spec generalizing n j with
  | nil => rfl
  | cons c rest ih =>
    rw [parseSpec_cons_length] at hj
    have hstep : spec_size_step_int (n : Int) c = (spec_size_step n c : Int) := by
      apply spec_size_step_int_eq
      intro hc
      have h1 : (parseSpec [c]).length = 1 := by
        unfold recognised at hc
        unfold parseSpec
        cases hk : ofCode c with
        | none => simp [hk] at hc
        | some k => simp [List.filterMap_cons, hk]
      omega
    rw [List.foldl_cons, spec_size_loop, hstep]
    exact ih _ (j + (parseSpec [c]).length) (spec_size_step_le n j c hn) (by omega)

/-- On a string with fewer than `2 ^ 28` recognised codes and fewer than `2 ^ 31` characters
the loop on machine integers holds the value of the unbounded one. -/
theorem spec_size_loop_int_eq (spec : List Char) (h : (parseSpec spec).length < 2 ^ 28)
    (hlen : spec.length < 2 ^ 31) :
    spec_size_loop_int spec 0 0 = some (spec_size spec : Int) := by
  rw [spec_size_loop_int_eq_foldl spec 0 0 (by unfold INT_MAX; omega)]
  have h1 := foldl_step_int_eq spec 0 0 (by omega) (by omega)
  rw [show ((0 : Int) = ((0 : Nat) : Int)) from rfl, h1]
  rfl

/-- On a string with fewer than `2 ^ 28` recognised codes and fewer than `2 ^ 31` characters
the source's `spec_size` returns the value of the unbounded one. -/
theorem spec_size_int_eq (spec : List Char) (h : (parseSpec spec).length < 2 ^ 28)
    (hlen : spec.length < 2 ^ 31) :
    spec_size_int spec = some (spec_size spec) := by
  unfold spec_size_int
  rw [spec_size_loop_int_eq spec h hlen]
  have h2 := spec_size_loop_le spec 0 0 (by omega)
  simp only [Option.map_some', Option.some.injEq]
  exact size_t_of_int_natCast _ (by unfold spec_size; omega)

/-- A string of `2 ^ 31` characters or more makes the index of the source's loop overflow. -/
theorem spec_size_int_eq_none (spec : List Char) (h : 2 ^ 31 ≤ spec.length) :
    spec_size_int spec = none := by
  unfold spec_size_int
  rw [spec_size_loop_int_eq_none spec 0 0 (Nat.zero_le _) (by unfold INT_MAX; omega)]
  rfl

theorem spec_size_int_eq_foldl (spec : List Char) (h : spec.length < 2 ^ 31) :
    spec_size_int spec = some (size_t_of_int (spec.foldl spec_size_step_int 0)) := by
  unfold spec_size_int
  rw [spec_size_loop_int_eq_foldl spec 0 0 (by unfold INT_MAX; omega)]
  rfl

theorem spec_size_step_int_unrecognised (size : Int) (c : Char) (h : recognised c = false) :
    spec_size_step_int size c = size := by
  rw [spec_size_step_int_branch]
  unfold recognised at h
  cases hc : ofCode c with
  | none => rfl
  | some k => simp [hc] at h

theorem foldl_step_int_filter (s : List Char) (size : Int) :
    (s.filter recognised).foldl spec_size_step_int size = s.foldl spec_size_step_int size := by
  induction s generalizing size with
  | nil => rfl
  | cons c rest ih =>
    cases hc : recognised c with
    | false =>
      rw [List.filter_cons_of_neg (by simp [hc]), List.foldl_cons,
        spec_size_step_int_unrecognised size c hc]
      exact ih size
    | true =>
      rw [List.filter_cons_of_pos hc, List.foldl_cons, List.foldl_cons]
      exact ih _

theorem int_of_size_t_congr (m n : Nat) (h : m % 2 ^ 32 = n % 2 ^ 32) :
    int_of_size_t m = int_of_size_t n := by
  unfold int_of_size_t
  omega

theorem size_t_of_int_mod (x : Int) : (size_t_of_int x : Int) % 2 ^ 32 = x % 2 ^ 32 := by
  unfold size_t_of_int
  omega

theorem int_of_size_t_mod (m : Nat) : int_of_size_t m % 2 ^ 32 = (m : Int) % 2 ^ 32 := by
  unfold int_of_size_t
  omega

/-- One iteration of the machine loop on the code `l` from an accumulator that is a multiple
of 8 (modulo `2 ^ 32`). -/
theorem spec_size_step_int_l (k : Nat) :
    spec_size_step_int (int_of_size_t (8 * k)) 'l' = int_of_size_t (8 * (k + 1)) := by
  rw [spec_size_step_int_branch]
  have hl : ofCode 'l' = some long := by decide
  rw [hl]
  show add_member_int (int_of_size_t (8 * k)) 8 8 = int_of_size_t (8 * (k + 1))
  have hs : (size_t_of_int (int_of_size_t (8 * k)) : Int) % 2 ^ 32 =
      ((8 * k : Nat) : Int) % 2 ^ 32 := by
    rw [size_t_of_int_mod, int_of_size_t_mod]
  unfold add_member_int
  have h0 : size_t_of_int (int_of_size_t (8 * k)) % 8 = 0 := by omega
  simp only [h0, ne_eq, not_true_eq_false, if_false]
  apply int_of_size_t_congr
  omega

theorem foldl_step_int_replicate_l (n k : Nat) :
    (List.replicate n 'l').foldl spec_size_step_int (int_of_size_t (8 * k)) =
      int_of_size_t (8 * (k + n)) := by
  induction n generalizing k with
  | zero =>
    rw [List.replicate_zero, List.foldl_nil, Nat.add_zero]
  | succ m ih =>
    rw [List.replicate_succ, List.foldl_cons, spec_size_step_int_l, ih,
      show k + 1 + m = k + (m + 1) by omega]

theorem size_t_of_int_of_size_t_mod (U : Nat) :
    size_t_of_int (int_of_size_t U) % 2 ^ 32 = U % 2 ^ 32 := by
  have hs : (size_t_of_int (int_of_size_t U) : Int) % 2 ^ 32 = (U : Int) % 2 ^ 32 := by
    rw [size_t_of_int_mod, int_of_size_t_mod]
  omega

theorem add_member_int_wrap_1 (U : Nat) :
    add_member_int (int_of_size_t U) 1 1 = int_of_size_t (add_member U 1 1) := by
  have hs := size_t_of_int_of_size_t_mod U
  unfold add_member_int add_member
  by_cases h0 : U % 1 = 0
  · have h1 : size_t_of_int (int_of_size_t U) % 1 = 0 := by omega
    simp only [h0, h1, ne_eq, not_true_eq_false, if_false]
    apply int_of_size_t_congr
    omega
  · have h1 : size_t_of_int (int_of_size_t U) % 1 = U % 1 := by omega
    rw [h1]
    simp only [h0, ne_eq, not_false_eq_true, if_true]
    have ht := size_t_of_int_of_size_t_mod
      ((size_t_of_int (int_of_size_t U) + (1 + 2 ^ 64 - U % 1) % 2 ^ 64) % 2 ^ 64)
    apply int_of_size_t_congr
    omega

theorem add_member_int_wrap_2 (U : Nat) :
    add_member_int (int_of_size_t U) 2 2 = int_of_size_t (add_member U 2 2) := by
  have hs := size_t_of_int_of_size_t_mod U
  unfold add_member_int add_member
  by_cases h0 : U % 2 = 0
  · have h1 : size_t_of_int (int_of_size_t U) % 2 = 0 := by omega
    simp only [h0, h1, ne_eq, not_true_eq_false, if_false]
    apply int_of_size_t_congr
    omega
  · have h1 : size_t_of_int (int_of_size_t U) % 2 = U % 2 := by omega
    rw [h1]
    simp only [h0, ne_eq, not_false_eq_true, if_true]
    have ht := size_t_of_int_of_size_t_mod
      ((size_t_of_int (int_of_size_t U) + (2 + 2 ^ 64 - U % 2) % 2 ^ 64) % 2 ^ 64)
    apply int_of_size_t_congr
    omega

theorem add_member_int_wrap_4 (U : Nat) :
    add_member_int (int_of_size_t U) 4 4 = int_of_size_t (add_member U 4 4) := by
  have hs := size_t_of_int_of_size_t_mod U
  unfold add_member_int add_member
  by_cases h0 : U % 4 = 0
  · have h1 : size_t_of_int (int_of_size_t U) % 4 = 0 := by omega
    simp only [h0, h1, ne_eq, not_true_eq_false, if_false]
    apply int_of_size_t_congr
    omega
  · have h1 : size_t_of_int (int_of_size_t U) % 4 = U % 4 := by omega
    rw [h1]
    simp only [h0, ne_eq, not_false_eq_true, if_true]
    have ht := size_t_of_int_of_size_t_mod
      ((size_t_of_int (int_of_size_t U) + (4 + 2 ^ 64 - U % 4) % 2 ^ 64) % 2 ^ 64)
    apply int_of_size_t_congr
    omega

theorem add_member_int_wrap_8 (U : Nat) :
    add_member_int (int_of_size_t U) 8 8 = int_of_size_t (add_member U 8 8) := by
  have hs := size_t_of_int_of_size_t_mod U
  unfold add_member_int add_member
  by_cases h0 : U % 8 = 0
  · have h1 : size_t_of_int (int_of_size_t U) % 8 = 0 := by omega
    simp only [h0, h1, ne_eq, not_true_eq_false, if_false]
    apply int_of_size_t_congr
    omega
  · have h1 : size_t_of_int (int_of_size_t U) % 8 = U % 8 := by omega
    rw [h1]
    simp only [h0, ne_eq, not_false_eq_true, if_true]
    have ht := size_t_of_int_of_size_t_mod
      ((size_t_of_int (int_of_size_t U) + (8 + 2 ^ 64 - U % 8) % 2 ^ 64) % 2 ^ 64)
    apply int_of_size_t_congr
    omega

theorem add_member_int_wrap (U : Nat) (k : FieldKind) :
    add_member_int (int_of_size_t U) (byteSize k) (byteAlign k) =
      int_of_size_t (add_member U (byteSize k) (byteAlign k)) := by
  cases k
  · exact add_member_int_wrap_1 U
  · exact add_member_int_wrap_2 U
  · exact add_member_int_wrap_4 U
  · exact add_member_int_wrap_8 U
  · exact add_member_int_wrap_8 U
  · exact add_member_int_wrap_4 U
  · exact add_member_int_wrap_8 U
  · exact add_member_int_wrap_8 U

/-- One iteration of the machine loop keeps the accumulator equal to the unbounded one
converted to `int`. -/
theorem spec_size_step_int_wrap (U : Nat) (c : Char) :
    spec_size_step_int (int_of_size_t U) c = int_of_size_t (spec_size_step U c) := by
  rw [spec_size_step_int_branch, spec_size_step_branch]
  cases hc : ofCode c with
  | none => rfl
  | some k => exact add_member_int_wrap U k

theorem foldl_step_int_wrap (spec : List Char) (U : Nat) :
    spec.foldl spec_size_step_int (int_of_size_t U) = int_of_size_t (spec_size_loop spec U) := by
  induction spec generalizing U with
  | nil => rw [List.foldl_nil, spec_size_loop]
  | cons c rest ih =>
    rw [List.foldl_cons, spec_size_step_int_wrap, ih, spec_size_loop]

/-- On every string shorter than `2 ^ 31` characters the source's `spec_size` returns the
unbounded value converted to `int` and back to `size_t`. -/
theorem spec_size_int_eq_wrap (spec : List Char) (hlen : spec.length < 2 ^ 31) :
    spec_size_int spec = some (size_t_of_int (int_of_size_t (spec_size spec))) := by
  rw [spec_size_int_eq_foldl spec hlen]
  have h := foldl_step_int_wrap spec 0
  rw [show int_of_size_t 0 = 0 from rfl] at h
  rw [h]
  rfl

theorem wrap_of_lt (U : Nat) (h : U < 2 ^ 31) : size_t_of_int (int_of_size_t U) = U := by
  unfold size_t_of_int int_of_size_t
  omega

theorem wrap_of_ge (U : Nat) (h1 : 2 ^ 31 ≤ U) (h2 : U < 2 ^ 32) :
    size_t_of_int (int_of_size_t U) = U + (2 ^ 64 - 2 ^ 32) := by
  unfold size_t_of_int int_of_size_t
  omega

/-- The value the source's `spec_size` returns on `n` codes `l`: `8 * n` converted to `int`
and back to `size_t`. -/
theorem spec_size_int_replicate_l (n : Nat) (h : n < 2 ^ 31) :
    spec_size_int (List.replicate n 'l') =
      some (size_t_of_int (int_of_size_t (8 * n))) := by
  rw [spec_size_int_eq_foldl _ (by rw [List.length_replicate]; exact h)]
  have h1 := foldl_step_int_replicate_l n 0
  rw [Nat.zero_add] at h1
  rw [show (0 : Int) = int_of_size_t (8 * 0) from rfl, h1]

theorem encode_replicate (n : Nat) (k : FieldKind) :
    encode (List.replicate n k) = List.replicate n (code k) := by
  unfold encode
  exact List.map_replicate

theorem computeSize_replicate_long (n : Nat) : computeSize (List.replicate n long) = 8 * n := by
  induction n with
  | zero => rfl
  | succ m ih =>
    rw [List.replicate_succ', computeSize_concat, ih,
      roundUp_eq_of_dvd _ _ (by simp [byteAlign])]
    simp only [byteSize]
    omega

theorem sumSizes_replicate_long (n : Nat) : sumSizes (List.replicate n long) = 8 * n := by
  unfold sumSizes
  rw [List.map_replicate, List.sum_replicate]
  simp [byteSize, Nat.mul_comm]

theorem filter_recognised_replicate_x (n : Nat) :
    (List.replicate n 'x').filter recognised = [] := by
  induction n with
  | zero => rfl
  | succ m ih =>
    rw [List.replicate_succ, List.filter_cons_of_neg (by decide)]
    exact ih

theorem parseSpec_replicate_x (n : Nat) : parseSpec (List.replicate n 'x') = [] := by
  induction n with
  | zero => rfl
  | succ m ih =>
    rw [List.replicate_succ]
    unfold parseSpec at *
    rw [List.filterMap_cons_none (by decide)]
    exact ih

theorem spec_size_int_encode (ks : List FieldKind) (h : ks.length < 2 ^ 28) :
    spec_size_int (encode ks) = some (computeSize ks) := by
  have hlen : (encode ks).length = ks.length := by simp [encode]
  rw [spec_size_int_eq (encode ks) (by rw [parseSpec_encode]; exact h) (by omega),
    spec_size_encode]

/-! ## Lemmas on extension, ordered alignments and `main` -/

theorem le_spec_size_step (size : Nat) (c : Char) : size ≤ spec_size_step size c := by
  rw [spec_size_step_eq]
  cases hc : ofCode c with
  | none => exact Nat.le_refl _
  | some k =>
    have h1 := le_roundUp size (byteAlign k) (byteAlign_pos k)
    show size ≤ roundUp size (byteAlign k) + byteSize k
    omega

theorem lt_spec_size_step (size : Nat) (c : Char) (hc : recognised c = true) :
    size < spec_size_step size c := by
  rw [spec_size_step_eq]
  unfold recognised at hc
  cases hk : ofCode c with
  | none => simp [hk] at hc
  | some k =>
    have h1 := le_roundUp size (byteAlign k) (byteAlign_pos k)
    have h2 := byteSize_pos k
    show size < roundUp size (byteAlign k) + byteSize k
    omega

theorem le_spec_size_loop (t : List Char) (size : Nat) : size ≤ spec_size_loop t size := by
  induction t generalizing size with
  | nil => exact Nat.le_refl _
  | cons c rest ih =>
    exact Nat.le_trans (le_spec_size_step size c) (ih _)

theorem lt_spec_size_loop (t : List Char) (size : Nat)
    (h : ∃ c ∈ t, recognised c = true) : size < spec_size_loop t size := by
  induction t generalizing size with
  | nil => simp at h
  | cons c rest ih =>
    rw [spec_size_loop]
    by_cases hc : recognised c = true
    · exact Nat.lt_of_lt_of_le (lt_spec_size_step size c hc) (le_spec_size_loop rest _)
    · have hrest : ∃ d ∈ rest, recognised d = true := by
        obtain ⟨d, hd, hr⟩ := h
        rcases List.mem_cons.mp hd with rfl | hd2
        · exact absurd hr hc
        · exact ⟨d, hd2, hr⟩
      exact Nat.lt_of_le_of_lt (le_spec_size_step size c) (ih _ hrest)

theorem parseSpec_take_length_le (spec : List Char) (n : Nat) :
    (parseSpec (spec.take n)).length ≤ (parseSpec spec).length := by
  unfold parseSpec
  exact ((List.take_sublist n spec).filterMap ofCode).length_le

/-- With alignments that do not increase, a cursor that is a multiple of the alignment of the
first field is advanced by exactly the sizes of the fields. -/
theorem foldl_eq_add_sumSizes (ks : List FieldKind) (cursor : Nat)
    (hord : alignNonIncreasing ks = true)
    (hal : ∀ k ∈ ks.head?, cursor % byteAlign k = 0) :
    ks.foldl (fun cursor k => roundUp cursor (byteAlign k) + byteSize k) cursor =
      cursor + sumSizes ks := by
  induction ks generalizing cursor with
  | nil => simp [sumSizes]
  | cons a rest ih =>
    have ha : cursor % byteAlign a = 0 := hal a (by simp)
    simp only [List.foldl_cons, roundUp_eq_of_dvd cursor (byteAlign a) ha]
    have hrest : alignNonIncreasing rest = true := by
      cases rest with
      | nil => rfl
      | cons b rest2 =>
        simp only [alignNonIncreasing, Bool.and_eq_true] at hord
        exact hord.2
    have hnext : ∀ k ∈ rest.head?, (cursor + byteSize a) % byteAlign k = 0 := by
      intro k hk
      cases rest with
      | nil => simp at hk
      | cons b rest2 =>
        simp only [List.head?_cons, Option.mem_def, Option.some.injEq] at hk
        subst hk
        simp only [alignNonIncreasing, Bool.and_eq_true, decide_eq_true_eq] at hord
        have hle := hord.1
        cases a <;> cases b <;> simp only [byteAlign, byteSize] at ha hle ⊢ <;> omega
    rw [ih _ hrest hnext]
    simp only [sumSizes, List.map_cons, List.sum_cons]
    omega

theorem spec_print_ci (data dataAddr : Nat) :
    spec_print ['c', 'i'] data dataAddr =
      some [⟨dataAddr + 0, "char", .load (data + 0) 1⟩,
        ⟨dataAddr + 8, "int", .load (data + 4) 4⟩] :=
  rfl

theorem main_loop_eq (xAddr dataAddr : Nat) (lines : List PrintLine)
    (h : spec_print ['c', 'i'] xAddr dataAddr = some lines) (args : List (List Char)) :
    main_loop xAddr dataAddr args =
      some (args.flatMap (fun arg =>
        OutputLine.size_line (format_size_line arg) :: lines.map OutputLine.field_line)) := by
  induction args with
  | nil => rfl
  | cons arg rest ih =>
    rw [main_loop, h]
    simp only [ih, Option.map_some', List.flatMap_cons, List.cons_append]

/-! ## The indices used on `checker` -/

theorem print_branch_eq_none_iff (c : Char) (data progress : Nat) :
    print_branch c data progress = none ↔ ofCode c = none := by
  unfold print_branch ofCode
  split_ifs <;> simp

theorem scan_end_le (buf : List Char) : scan_end buf ≤ buf.length := by
  unfold scan_end
  exact (List.takeWhile_sublist _).length_le

theorem scan_end_lt_iff (buf : List Char) : scan_end buf < buf.length ↔ NUL ∈ buf := by
  unfold scan_end
  induction buf with
  | nil => simp
  | cons c rest ih =>
    by_cases hc : c = NUL
    · subst hc
      simp [List.takeWhile_cons]
    · have hne : NUL ≠ c := fun h => hc h.symm
      simp [List.takeWhile_cons, hc, hne, ih]

/-- The loop of `spec_print` prints its lines exactly when every index it uses on `checker`,
written or read, is inside the buffer. -/
theorem spec_print_loop_isSome_iff (data dataAddr : Nat) (spec : List Char)
    (i progress : Nat) (checker : List Char) :
    (spec_print_loop data dataAddr spec i progress checker).isSome = true ↔
      ∀ p ∈ checker_trace spec i checker, p.1 < checker.length ∧ p.2 < checker.length := by
  induction spec generalizing i progress checker with
  | nil => simp [spec_print_loop, checker_trace]
  | cons c rest ih =>
    cases hc : ofCode c with
    | none =>
      have hb := (print_branch_eq_none_iff c data progress).mpr hc
      rw [spec_print_loop, hb, checker_trace, hc]
      exact ih _ _ _
    | some k =>
      cases hb : print_branch c data progress with
      | none => rw [(print_branch_eq_none_iff c data progress).mp hb] at hc; cases hc
      | some nv =>
        obtain ⟨name, value⟩ := nv
        rw [spec_print_loop, hb, checker_trace, hc]
        simp only [List.mem_cons, forall_eq_or_imp]
        have hlen : (checker.set i c).length = checker.length := List.length_set _ _ _
        by_cases hi : i < checker.length
        · simp only [hi, if_true, true_and]
          by_cases hn : NUL ∈ checker.set i c
          · have hs : scan_end (checker.set i c) < checker.length := by
              rw [← hlen]
              exact (scan_end_lt_iff _).mpr hn
            simp only [cstring, hn, if_true, Option.isSome_map', hs, true_and]
            rw [ih (i + 1) _ (checker.set i c), hlen]
          · have hs : ¬ scan_end (checker.set i c) < checker.length := by
              rw [← hlen]
              exact fun h => hn ((scan_end_lt_iff _).mp h)
            simp [cstring, hn, hs]
        · simp [hi]

/-! ## The layout in unbounded integers -/

/-- In unbounded integers, for every string `spec`, `spec_size spec` is the reference cursor
computation over the recognised codes of `spec` in order, with no tail rounding. -/
theorem spec_size_eq_reference (spec : List Char) :
    spec_size spec = computeSize (parseSpec spec) :=
  spec_size_eq_computeSize spec

/-- In unbounded integers, the position `fieldOffset` of a field is the accumulator after that
field less the field's size; the first field is at 0, every field is at a multiple of its
alignment, and every field after the first starts at or after the end of the field
preceding it. -/
theorem fieldOffset_aligned_disjoint (ks : List FieldKind) :
    fieldOffset ks 0 = 0 ∧
    (∀ i, ∀ h : i < ks.length,
      fieldOffset ks i + byteSize (ks.get ⟨i, h⟩) = spec_size (encode (ks.take (i + 1))) ∧
      fieldOffset ks i % byteAlign (ks.get ⟨i, h⟩) = 0) ∧
    (∀ i, ∀ h : i + 1 < ks.length,
      fieldOffset ks i + byteSize (ks.get ⟨i, Nat.lt_of_succ_lt h⟩) ≤ fieldOffset ks (i + 1)) := by
  refine ⟨?_, ?_, (validLayout_fieldOffset ks).2⟩
  · cases ks with
    | nil => rfl
    | cons k rest =>
      rw [fieldOffset_eq_computeOffset _ 0 (by simp), computeOffset_zero]
  · intro i h
    refine ⟨?_, (validLayout_fieldOffset ks).1 i h⟩
    rw [fieldOffset_eq_computeOffset ks i h, spec_size_encode, computeSize_take_succ ks i h,
      computeOffset_of_lt ks i h]

/-- The unbounded layout of the specification "cic": the fields are placed at 0, 4 and 8. -/
theorem fieldOffset_aligned_disjoint_witness :
    List.map (fieldOffset [char, int, char]) [0, 1, 2] = [0, 4, 8] ∧
    fieldOffset [char, int, char] 1 % byteAlign int = 0 ∧
    fieldOffset [char, int, char] 1 + byteSize int ≤ fieldOffset [char, int, char] 2 :=
  ⟨by decide, ((fieldOffset_aligned_disjoint [char, int, char]).2.1 1 (by decide)).2,
    (fieldOffset_aligned_disjoint [char, int, char]).2.2 1 (by decide)⟩

/-- In unbounded integers, prefix replay agrees with the incremental cursor: `computeOffset`
at `i` is `spec_size` of the first `i` codes rounded up to the alignment of field `i`,
`spec_size` of the first `i + 1` codes is that offset plus the size of field `i`, and one past
the end `computeOffset` is `spec_size` of the whole specification. -/
theorem spec_size_prefix_replay (ks : List FieldKind) :
    (∀ i, ∀ h : i < ks.length,
      computeOffset ks i =
        roundUp (spec_size (encode (ks.take i))) (byteAlign (ks.get ⟨i, h⟩)) ∧
      spec_size (encode (ks.take (i + 1))) = computeOffset ks i + byteSize (ks.get ⟨i, h⟩)) ∧
    computeOffset ks ks.length = spec_size (encode ks) := by
  constructor
  · intro i h
    rw [spec_size_encode, spec_size_encode, computeSize_take_succ ks i h,
      computeOffset_of_lt ks i h]
    exact ⟨rfl, rfl⟩
  · unfold computeOffset
    rw [spec_size_encode]
    simp [roundUp]

/-- The unbounded prefix replay of the specification "cic": the int is at offset 4 and ends
at 8. -/
theorem spec_size_prefix_replay_witness :
    computeOffset [char, int, char] 1 = 4 ∧
    spec_size (encode ([char, int, char].take 2)) =
      computeOffset [char, int, char] 1 + byteSize int ∧
    computeOffset [char, int, char] 3 = spec_size (encode [char, int, char]) :=
  ⟨by decide, ((spec_size_prefix_replay [char, int, char]).1 1 (by decide)).2,
    (spec_size_prefix_replay [char, int, char]).2⟩

/-- In unbounded integers, `spec_size s` is `spec_size` of `s` with every character outside
the eight codes removed, and inserting an unrecognised character at any position of a string
leaves the result unchanged. -/
theorem spec_size_skips_unrecognised (s t : List Char) :
    spec_size s = spec_size (s.filter recognised) ∧
    ∀ c, recognised c = false → spec_size (s ++ c :: t) = spec_size (s ++ t) := by
  constructor
  · rw [spec_size_eq_computeSize, spec_size_eq_computeSize, parseSpec_filter]
  · intro c hc
    have hnone : ofCode c = none := by
      cases h : ofCode c with
      | none => rfl
      | some k => simp [recognised, h] at hc
    unfold spec_size
    rw [spec_size_loop_append, spec_size_loop_append]
    have hstep : ∀ size, spec_size_step size c = size := by
      intro size
      rw [spec_size_step_eq, hnone]
    simp [spec_size_loop, hstep]

/-- In unbounded integers, `spec_size` is at least the sum of the sizes of the fields. -/
theorem sumSizes_le_spec_size (ks : List FieldKind) :
    sumSizes ks ≤ spec_size (encode ks) := by
  rw [spec_size_encode]
  have h := computeSize_ge_add_sumSizes ks 0
  unfold computeSize
  omega

/-- In unbounded integers, the offsets at which `spec_size` places the fields of a non-empty
specification satisfy the offset and alignment invariants and end at `spec_size`, and every
assignment of offsets that satisfies the invariants ends at or after `spec_size`. -/
theorem spec_size_minimal (ks : List FieldKind) (hne : ks ≠ []) :
    (ValidLayout ks (fieldOffset ks) ∧
      fieldOffset ks (ks.length - 1) + byteSize (ks.getLast hne) = spec_size (encode ks)) ∧
    ∀ o : Nat → Nat, ValidLayout ks o →
      spec_size (encode ks) ≤ o (ks.length - 1) + byteSize (ks.getLast hne) := by
  have hpos : 0 < ks.length := List.length_pos.mpr hne
  have hlt : ks.length - 1 < ks.length := by omega
  have hlast : ks.getLast hne = ks.get ⟨ks.length - 1, hlt⟩ := by
    rw [List.getLast_eq_getElem]
    rfl
  have hsize : spec_size (encode ks) =
      computeOffset ks (ks.length - 1) + byteSize (ks.getLast hne) := by
    have h1 := computeSize_take_succ ks (ks.length - 1) hlt
    have h2 : ks.length - 1 + 1 = ks.length := by omega
    rw [h2, List.take_length] at h1
    rw [spec_size_encode, h1, hlast, computeOffset_of_lt ks _ hlt]
  refine ⟨⟨validLayout_fieldOffset ks, ?_⟩, ?_⟩
  · rw [fieldOffset_eq_computeOffset ks _ hlt, hsize]
  · intro o hv
    have h := computeOffset_le_of_validLayout ks o hv (ks.length - 1) hlt
    rw [hsize]
    omega

/-- The specification "ci" and the layout that puts the int at offset 8: that layout
satisfies the invariants and ends at 12, not before the unbounded `spec_size` of "ci",
which is 8. -/
theorem spec_size_minimal_witness :
    ValidLayout [char, int] (fun i => 8 * i) ∧
    spec_size (encode [char, int]) = 8 ∧
    spec_size (encode [char, int]) ≤ (fun i => 8 * i) 1 + byteSize int :=
  have hv : ValidLayout [char, int] (fun i => 8 * i) := by
    constructor
    · intro i h
      have h2 : i < 2 := h
      interval_cases i <;> simp [byteAlign]
    · intro i h
      have h2 : i + 1 < 2 := h
      have h0 : i = 0 := by omega
      subst h0
      simp [byteSize]
  ⟨hv, by decide, (spec_size_minimal [char, int] (by decide)).2 (fun i => 8 * i) hv⟩

/-- In unbounded integers, when the field alignments do not increase from left to right,
`spec_size` is the sum of the sizes of the fields. -/
theorem spec_size_eq_sumSizes_of_ordered (ks : List FieldKind)
    (hord : alignNonIncreasing ks = true) : spec_size (encode ks) = sumSizes ks := by
  rw [spec_size_encode]
  unfold computeSize
  rw [foldl_eq_add_sumSizes ks 0 hord (fun k _ => Nat.zero_mod _)]
  omega

/-- The unbounded size of the specification "lisc" is 8 + 4 + 2 + 1. -/
theorem spec_size_eq_sumSizes_of_ordered_witness :
    alignNonIncreasing [long, int, short, char] = true ∧
    sumSizes [long, int, short, char] = 15 ∧
    spec_size (encode [long, int, short, char]) = sumSizes [long, int, short, char] :=
  ⟨by decide, by decide, spec_size_eq_sumSizes_of_ordered [long, int, short, char] (by decide)⟩

/-- In unbounded integers, `spec_size s` is at most `spec_size (s ++ t)`, and strictly less
when `t` contains a recognised code. -/
theorem spec_size_mono_append (s t : List Char) :
    spec_size s ≤ spec_size (s ++ t) ∧
    ((∃ c ∈ t, recognised c = true) → spec_size s < spec_size (s ++ t)) := by
  unfold spec_size
  rw [spec_size_loop_append]
  exact ⟨le_spec_size_loop t _, fun h => lt_spec_size_loop t _ h⟩

/-- The unbounded size of "c" extended by "xi" grows from 1 to 8. -/
theorem spec_size_mono_append_witness :
    spec_size ['c'] = 1 ∧ spec_size (['c'] ++ ['x', 'i']) = 8 ∧
    spec_size ['c'] < spec_size (['c'] ++ ['x', 'i']) :=
  ⟨by decide, by decide,
    (spec_size_mono_append ['c'] ['x', 'i']).2 ⟨'i', by decide, by decide⟩⟩

/-! ## The source's `spec_size` below and beyond the range of `int` -/

theorem encode_length (ks : List FieldKind) : (encode ks).length = ks.length := by
  unfold encode
  exact List.length_map _ _

theorem fieldOffset_int_eq (ks : List FieldKind) (i : Nat) (h : ks.length < 2 ^ 28) :
    fieldOffset_int ks i = some (fieldOffset ks i) := by
  unfold fieldOffset_int fieldOffset
  have hlen : (ks.take (i + 1)).length < 2 ^ 28 := by
    rw [List.length_take]
    omega
  rw [spec_size_int_encode _ hlen, spec_size_encode]
  rfl

theorem computeOffset_int_eq (ks : List FieldKind) (i : Nat) (h : ks.length < 2 ^ 28) :
    computeOffset_int ks i = some (computeOffset ks i) := by
  unfold computeOffset_int computeOffset
  have hlen : (ks.take i).length < 2 ^ 28 := by
    rw [List.length_take]
    omega
  rw [spec_size_int_encode _ hlen]
  rfl

theorem get?_replicate_of_lt (n i : Nat) (k : FieldKind) (hi : i < n) :
    (List.replicate n k).get? i = some k := by
  rw [List.get?_eq_getElem?, List.getElem?_replicate, if_pos hi]

theorem take_replicate_of_le (n i : Nat) (k : FieldKind) (hi : i ≤ n) :
    (List.replicate n k).take i = List.replicate i k := by
  rw [List.take_replicate, Nat.min_eq_left hi]

theorem fieldOffset_int_replicate_long (n i : Nat) (hi : i < n) (hn : n < 2 ^ 31) :
    fieldOffset_int (List.replicate n long) i =
      some (size_t_of_int (int_of_size_t (8 * (i + 1))) - 8) := by
  unfold fieldOffset_int
  rw [take_replicate_of_le n (i + 1) long hi, get?_replicate_of_lt n i long hi,
    encode_replicate]
  show Option.map _ (spec_size_int (List.replicate (i + 1) 'l')) = _
  rw [spec_size_int_replicate_l (i + 1) (by omega)]
  rfl

theorem computeOffset_int_replicate_long (n i : Nat) (hi : i < n) (hn : n < 2 ^ 31) :
    computeOffset_int (List.replicate n long) i =
      some (roundUp (size_t_of_int (int_of_size_t (8 * i))) 8) := by
  unfold computeOffset_int
  rw [take_replicate_of_le n i long (Nat.le_of_lt hi), get?_replicate_of_lt n i long hi,
    encode_replicate]
  show Option.map _ (spec_size_int (List.replicate i 'l')) = _
  rw [spec_size_int_replicate_l i (by omega)]
  rfl

theorem spec_size_int_encode_replicate_long (n : Nat) (hn : n < 2 ^ 31) :
    spec_size_int (encode (List.replicate n long)) =
      some (size_t_of_int (int_of_size_t (8 * n))) := by
  rw [encode_replicate]
  exact spec_size_int_replicate_l n hn

theorem validLayout_replicate_long (n : Nat) :
    ValidLayout (List.replicate n long) (fun i => 8 * i) := by
  constructor
  · intro i h
    rw [List.get_eq_getElem, List.getElem_replicate]
    show 8 * i % 8 = 0
    omega
  · intro i h
    rw [List.get_eq_getElem, List.getElem_replicate]
    show 8 * i + 8 ≤ 8 * (i + 1)
    omega

theorem alignNonIncreasing_replicate (n : Nat) (k : FieldKind) :
    alignNonIncreasing (List.replicate n k) = true := by
  induction n with
  | zero => rfl
  | succ m ih =>
    cases m with
    | zero => rfl
    | succ j =>
      rw [List.replicate_succ, List.replicate_succ]
      rw [List.replicate_succ] at ih
      simp only [alignNonIncreasing, Bool.and_eq_true, decide_eq_true_eq]
      exact ⟨Nat.le_refl _, ih⟩

theorem spec_size_replicate_x (n : Nat) : spec_size (List.replicate n 'x') = 0 := by
  rw [spec_size_eq_computeSize, parseSpec_replicate_x]
  rfl

theorem parseSpec_append_length (s t : List Char) :
    (parseSpec (s ++ t)).length = (parseSpec s).length + (parseSpec t).length := by
  unfold parseSpec
  rw [List.filterMap_append, List.length_append]

theorem wrap_cases (U : Nat) (h : U < 2 ^ 32) :
    (U < 2 ^ 31 ∧ size_t_of_int (int_of_size_t U) = U) ∨
    (2 ^ 31 ≤ U ∧ size_t_of_int (int_of_size_t U) = U + (2 ^ 64 - 2 ^ 32)) := by
  rcases Nat.lt_or_ge U (2 ^ 31) with hlt | hge
  · exact Or.inl ⟨hlt, wrap_of_lt U hlt⟩
  · exact Or.inr ⟨hge, wrap_of_ge U hge h⟩

/-- On a string shorter than `2 ^ 31` characters whose unbounded size is below `2 ^ 31` the
source's `spec_size` returns the unbounded size. -/
theorem spec_size_int_of_fit (spec : List Char) (hlen : spec.length < 2 ^ 31)
    (hfit : spec_size spec < 2 ^ 31) : spec_size_int spec = some (spec_size spec) := by
  rw [spec_size_int_eq_wrap spec hlen, wrap_of_lt _ hfit]

theorem spec_size_int_encode_wrap (ks : List FieldKind) (hlen : ks.length < 2 ^ 31) :
    spec_size_int (encode ks) = some (size_t_of_int (int_of_size_t (computeSize ks))) := by
  rw [spec_size_int_eq_wrap (encode ks) (by rw [encode_length]; exact hlen), spec_size_encode]

theorem spec_size_int_encode_of_fit (ks : List FieldKind) (hlen : ks.length < 2 ^ 31)
    (hfit : computeSize ks < 2 ^ 31) : spec_size_int (encode ks) = some (computeSize ks) := by
  rw [spec_size_int_encode_wrap ks hlen, wrap_of_lt _ hfit]

theorem encode_append (a b : List FieldKind) : encode (a ++ b) = encode a ++ encode b := by
  unfold encode
  exact List.map_append _ _ _

theorem computeSize_take_le (ks : List FieldKind) (j : Nat) :
    computeSize (ks.take j) ≤ computeSize ks := by
  have h := (spec_size_mono_append (encode (ks.take j)) (encode (ks.drop j))).1
  rw [← encode_append, List.take_append_drop, spec_size_encode, spec_size_encode] at h
  exact h

theorem length_take_lt (ks : List FieldKind) (j b : Nat) (h : ks.length < b) :
    (ks.take j).length < b := by
  rw [List.length_take]
  omega

theorem length_le_sumSizes (ks : List FieldKind) : ks.length ≤ sumSizes ks := by
  induction ks with
  | nil => exact Nat.le_refl _
  | cons k rest ih =>
    have hk := byteSize_pos k
    simp only [sumSizes, List.map_cons, List.sum_cons, List.length_cons] at ih ⊢
    omega

theorem fieldOffset_int_eq_wrap (ks : List FieldKind) (i : Nat) (hlen : ks.length < 2 ^ 31) :
    fieldOffset_int ks i =
      some (size_t_of_int (int_of_size_t (computeSize (ks.take (i + 1)))) -
        ((ks.get? i).map byteSize).getD 0) := by
  unfold fieldOffset_int
  rw [spec_size_int_encode_wrap _ (length_take_lt ks (i + 1) _ hlen)]
  rfl

theorem fieldOffset_int_eq_of_fit (ks : List FieldKind) (i : Nat) (hlen : ks.length < 2 ^ 31)
    (hfit : computeSize ks < 2 ^ 31) : fieldOffset_int ks i = some (fieldOffset ks i) := by
  have hle := computeSize_take_le ks (i + 1)
  rw [fieldOffset_int_eq_wrap ks i hlen, wrap_of_lt _ (by omega)]
  unfold fieldOffset
  rw [spec_size_encode]

theorem computeOffset_int_eq_of_fit (ks : List FieldKind) (i : Nat)
    (hlen : ks.length < 2 ^ 31) (hfit : computeSize ks < 2 ^ 31) :
    computeOffset_int ks i = some (computeOffset ks i) := by
  have hle := computeSize_take_le ks i
  unfold computeOffset_int computeOffset
  rw [spec_size_int_encode_of_fit _ (length_take_lt ks i _ hlen) (by omega)]
  rfl

/-- One past the end, with the virtual field of alignment 1, the replayed offset is the value
the source's `spec_size` returns on the whole specification. -/
theorem computeOffset_int_length (ks : List FieldKind) :
    computeOffset_int ks ks.length = spec_size_int (encode ks) := by
  unfold computeOffset_int
  rw [List.take_length, List.get?_eq_none.mpr (Nat.le_refl _)]
  have hid : (fun size => roundUp size ((Option.map byteAlign none).getD 1)) = id := by
    funext size
    exact roundUp_eq_of_dvd size 1 (Nat.mod_one _)
  rw [hid, Option.map_id]
  rfl

/-! ## The claims -/

/-- C2 (the code at the failing input): for the specification "ic" `spec_size` returns 5,
which is not a multiple of the largest alignment 4 of its fields, whereas the C struct has
size 8. -/
theorem spec_size_ic_not_struct_size :
    spec_size ['i', 'c'] = 5 ∧ maxAlign [int, char] = 4 ∧
      spec_size ['i', 'c'] % maxAlign [int, char] ≠ 0 ∧ structSize [int, char] = 8 := by
  decide

/-- C5 (the code at the failing input): for the specification "cic" `spec_print` renders
the three fields at the byte offsets 0, 4 and 9 from `data`, whereas `computeOffset` places
them at 0, 4 and 8. -/
theorem spec_print_cic_decodes_at_0_4_9 (data dataAddr : Nat) :
    (spec_print ['c', 'i', 'c'] data dataAddr).map (List.map PrintLine.valueAddr) =
      some [data + 0, data + 4, data + 9] ∧
    List.map (computeOffset [char, int, char]) [0, 1, 2] = [0, 4, 8] := by
  refine ⟨rfl, by decide⟩

/-- C6 (the code at the failing input): for the specification "ii" `spec_print` reads the
second int from the 4 bytes at offset 16 from `data`, whereas `spec_size` of "ii" is 8. -/
theorem spec_print_ii_reads_past_size (data dataAddr : Nat) :
    spec_print ['i', 'i'] data dataAddr =
      some [⟨dataAddr + 0, "int", .load (data + 0) 4⟩,
        ⟨dataAddr + 32, "int", .load (data + 16) 4⟩] ∧
    spec_size ['i', 'i'] = 8 ∧ ¬ (16 + byteSize int ≤ spec_size ['i', 'i']) := by
  refine ⟨rfl, by decide, by decide⟩

/-- C10: for every single-field specification, `spec_size` is the size of its kind in the
alphabet table: c 1, s 2, i 4, l 8, z 8, f 4, d 8, p 8. -/
theorem spec_size_single_field (k : FieldKind) :
    spec_size (encode [k]) = byteSize k ∧
    spec_size ['c'] = 1 ∧ spec_size ['s'] = 2 ∧ spec_size ['i'] = 4 ∧ spec_size ['l'] = 8 ∧
    spec_size ['z'] = 8 ∧ spec_size ['f'] = 4 ∧ spec_size ['d'] = 8 ∧ spec_size ['p'] = 8 := by
  refine ⟨?_, by decide⟩
  cases k <;> decide

/-- C11: `spec_size` returns the values of the concrete scenarios: 4 for "i", 8 for "ci",
5 for "ic", 16 for "cd" and 0 for the empty specification. -/
theorem spec_size_scenarios :
    spec_size ['i'] = 4 ∧ spec_size ['c', 'i'] = 8 ∧ spec_size ['i', 'c'] = 5 ∧
      spec_size ['c', 'd'] = 16 ∧ spec_size [] = 0 := by
  decide

/-- C12 (the code at the failing input): for the specification "ci" the two addresses
`spec_print` prints are `dataAddr` and `dataAddr + 8`, where `dataAddr` is the address of
the parameter `data`; they do not depend on the pointer `data`, and they differ by 8 whereas
the offset of the int is 4. -/
theorem spec_print_ci_printed_addresses (data dataAddr : Nat) :
    (spec_print ['c', 'i'] data dataAddr).map (List.map PrintLine.printed) =
      some [dataAddr + 0, dataAddr + 8] ∧
    computeOffset [char, int] 1 = 4 := by
  refine ⟨rfl, by decide⟩

/-- C13 as stated fails: for the single argument "i" the output of `main` has three lines,
not one. -/
theorem main_one_argument_three_lines :
    (main [['i']] 4096 8192).map List.length = some 3 ∧
    (main [['i']] 4096 8192).map List.length ≠ some ([['i']] : List (List Char)).length := by
  decide

/-- C13, amended: for every list of `n` arguments, `main` prints for each argument, in order,
the line made of the size right-justified in width 8, a space and the argument, where the
size is `spec_size` of the argument, followed by the two lines that the call
`spec_print("ci", &x)` prints; the output has `3 * n` lines. -/
theorem main_output (args : List (List Char)) (xAddr dataAddr : Nat) :
    ∃ lines, spec_print ['c', 'i'] xAddr dataAddr = some lines ∧ lines.length = 2 ∧
      main args xAddr dataAddr =
        some (args.flatMap (fun arg =>
          OutputLine.size_line (format_zu8 (spec_size arg) ++ ' ' :: arg) ::
            lines.map OutputLine.field_line)) ∧
      (main args xAddr dataAddr).map List.length = some (3 * args.length) := by
  refine ⟨_, spec_print_ci xAddr dataAddr, rfl, ?_, ?_⟩
  · exact main_loop_eq xAddr dataAddr _ (spec_print_ci xAddr dataAddr) args
  · unfold main
    rw [main_loop_eq xAddr dataAddr _ (spec_print_ci xAddr dataAddr) args]
    simp only [Option.map_some', Option.some.injEq]
    induction args with
    | nil => rfl
    | cons arg rest ih =>
      simp only [List.flatMap_cons, List.length_append, List.length_cons, List.length_map,
        List.length_nil, ih]
      omega

/-- C14 (the code at the failing input): for the specification "p" the value `spec_print`
renders is the address `data` itself, whatever the memory holds, and no byte of memory is
read; in a memory where the 8 bytes at address 4096 hold the pointer 42, the value rendered
for `data = 4096` is 4096. -/
theorem spec_print_p_renders_address (mem : Nat → Nat) (data dataAddr : Nat) :
    (spec_print ['p'] data dataAddr).map
        (List.map (fun l => (l.value.eval mem, l.bytesRead))) = some [(data + 0, 0)] ∧
    read_le (fun a => if a = 4096 then 42 else 0) 4096 sizeof_ptr = 42 ∧
    (spec_print ['p'] 4096 dataAddr).map
        (List.map (fun l => l.value.eval (fun a => if a = 4096 then 42 else 0))) =
      some [4096] := by
  refine ⟨rfl, by decide, rfl⟩

/-- C15 (the code at the failing input): for the specification of 64 codes `c`, the last
iteration of `spec_print` writes `checker[63]` and `spec_size(checker)` then reads up to
index 64 of the 64-byte buffer, past its end. -/
theorem spec_print_64_codes_overrun (data dataAddr : Nat) :
    checker_init.length = 64 ∧
    (checker_trace (List.replicate 64 'c') 0 checker_init).getLast? = some (63, 64) ∧
    spec_print (List.replicate 64 'c') data dataAddr = none := by
  refine ⟨by decide, by decide, ?_⟩
  have h := spec_print_loop_isSome_iff data dataAddr (List.replicate 64 'c') 0 0 checker_init
  cases hp : spec_print (List.replicate 64 'c') data dataAddr with
  | none => rfl
  | some lines =>
    unfold spec_print at hp
    rw [hp] at h
    have h2 := h.mp rfl (63, 64) (by decide)
    exact absurd h2.2 (by decide)

/-- C1 as stated fails: on the string of `2 ^ 28` codes `l` the 32-bit accumulator wraps and
the source's `spec_size` returns `2 ^ 64 - 2 ^ 31`, where the reference cursor computation
gives `2 ^ 31`; and on the string of `2 ^ 31` characters `x` the index of the loop overflows
and no value is returned, where the reference gives 0. -/
theorem spec_size_int_wraps_at_two_pow_28 :
    spec_size_int (List.replicate (2 ^ 28) 'l') = some (2 ^ 64 - 2 ^ 31) ∧
    computeSize (parseSpec (List.replicate (2 ^ 28) 'l')) = 2 ^ 31 ∧
    spec_size_int (List.replicate (2 ^ 31) 'x') = none ∧
    computeSize (parseSpec (List.replicate (2 ^ 31) 'x')) = 0 := by
  refine ⟨?_, ?_, ?_, ?_⟩
  · rw [spec_size_int_replicate_l (2 ^ 28) (by decide)]
    decide
  · have e : List.replicate (2 ^ 28) 'l' = encode (List.replicate (2 ^ 28) long) :=
      (encode_replicate (2 ^ 28) long).symm
    rw [e, parseSpec_encode, computeSize_replicate_long]
    decide
  · apply spec_size_int_eq_none
    rw [List.length_replicate]
  · rw [parseSpec_replicate_x]
    rfl

/-- C1, amended: for every string shorter than `2 ^ 31` characters whose reference cursor
value is below `2 ^ 31` (as it is whenever the string has fewer than `2 ^ 28` recognised
codes), the source's `spec_size` returns the reference cursor computation over the recognised
codes in order: the cursor starts at 0 and each code sets it to the cursor rounded up to the
code's alignment plus the code's size; the raw cursor after the last field is returned, with
no tail rounding. -/
theorem spec_size_int_eq_reference (spec : List Char) (hlen : spec.length < 2 ^ 31)
    (hfit : computeSize (parseSpec spec) < 2 ^ 31) :
    spec_size_int spec = some (computeSize (parseSpec spec)) := by
  rw [← spec_size_eq_computeSize] at hfit ⊢
  exact spec_size_int_of_fit spec hlen hfit

/-- C1, amended, at the string "cxd": the source returns 16. -/
theorem spec_size_int_eq_reference_witness :
    computeSize (parseSpec ['c', 'x', 'd']) = 16 ∧
    spec_size_int ['c', 'x', 'd'] = some (computeSize (parseSpec ['c', 'x', 'd'])) :=
  ⟨by decide, spec_size_int_eq_reference ['c', 'x', 'd'] (by decide) (by decide)⟩

/-- C3 as stated fails: in the specification of `2 ^ 29` codes `l` the accumulator has
wrapped to 0 after the last code, so the offset of the last field would be `0 - 8`, while the
field before it is placed at `2 ^ 64 - 16`: the last field does not start at or after the end
of the field preceding it. -/
theorem fieldOffset_int_overlap_after_wrap :
    fieldOffset_int (List.replicate (2 ^ 29) long) (2 ^ 29 - 2) = some (2 ^ 64 - 16) ∧
    spec_size_int (encode ((List.replicate (2 ^ 29) long).take (2 ^ 29 - 1 + 1))) = some 0 ∧
    fieldOffset_int (List.replicate (2 ^ 29) long) (2 ^ 29 - 1) = some (0 - 8) ∧
    ¬ (2 ^ 64 - 16 + byteSize long ≤ 0 - 8) := by
  refine ⟨?_, ?_, ?_, by decide⟩
  · rw [fieldOffset_int_replicate_long (2 ^ 29) (2 ^ 29 - 2) (by decide) (by decide)]
    decide
  · rw [take_replicate_of_le (2 ^ 29) (2 ^ 29 - 1 + 1) long (by decide),
      spec_size_int_encode_replicate_long (2 ^ 29 - 1 + 1) (by decide)]
    decide
  · rw [fieldOffset_int_replicate_long (2 ^ 29) (2 ^ 29 - 1) (by decide) (by decide)]
    decide

/-- C3, amended: for every specification over the alphabet with fewer than `2 ^ 31` codes
whose size in unbounded integers is below `2 ^ 32` (as it is whenever there are fewer than
`2 ^ 29` codes), with the offset of field `i` taken as the value the source's `spec_size`
returns on the first `i + 1` codes less the size of field `i`: the first field is at 0, the
subtraction is exact, every field is at a multiple of its alignment, and every field after
the first starts at or after the end of the field preceding it. -/
theorem fieldOffset_int_aligned_disjoint (ks : List FieldKind) (hlen : ks.length < 2 ^ 31)
    (hfit : computeSize ks < 2 ^ 32) :
    fieldOffset_int ks 0 = some 0 ∧
    (∀ i, ∀ h : i < ks.length, ∃ o, fieldOffset_int ks i = some o ∧
      spec_size_int (encode (ks.take (i + 1))) = some (o + byteSize (ks.get ⟨i, h⟩)) ∧
      o % byteAlign (ks.get ⟨i, h⟩) = 0) ∧
    (∀ i, ∀ h : i + 1 < ks.length, ∃ o o2, fieldOffset_int ks i = some o ∧
      fieldOffset_int ks (i + 1) = some o2 ∧
      o + byteSize (ks.get ⟨i, Nat.lt_of_succ_lt h⟩) ≤ o2) := by
  have hold := fieldOffset_aligned_disjoint ks
  -- the offset of field `i` on machine integers, from the unbounded one
  have key : ∀ i, ∀ h : i < ks.length,
      fieldOffset_int ks i =
        some (size_t_of_int (int_of_size_t (computeSize (ks.take (i + 1)))) -
          byteSize (ks.get ⟨i, h⟩)) ∧
      fieldOffset ks i + byteSize (ks.get ⟨i, h⟩) = computeSize (ks.take (i + 1)) ∧
      computeSize (ks.take (i + 1)) < 2 ^ 32 := by
    intro i h
    refine ⟨?_, ?_, Nat.lt_of_le_of_lt (computeSize_take_le ks (i + 1)) hfit⟩
    · rw [fieldOffset_int_eq_wrap ks i hlen, List.get?_eq_get h]
      rfl
    · rw [(hold.2.1 i h).1, spec_size_encode]
  refine ⟨?_, ?_, ?_⟩
  · cases hks : ks with
    | nil => decide
    | cons k rest =>
      have h0 : 0 < ks.length := by rw [hks]; exact Nat.succ_pos _
      obtain ⟨k1, k2, _⟩ := key 0 h0
      have hz := hold.1
      have hk8 : byteSize (ks.get ⟨0, h0⟩) ≤ 8 := by
        cases ks.get ⟨0, h0⟩ <;> decide
      rw [← hks, k1, wrap_of_lt _ (by omega)]
      refine congrArg some ?_
      omega
  · intro i h
    obtain ⟨k1, k2, k3⟩ := key i h
    have hal := (hold.2.1 i h).2
    refine ⟨_, k1, ?_, ?_⟩
    · rw [spec_size_int_encode_wrap _ (length_take_lt ks (i + 1) _ hlen)]
      refine congrArg some ?_
      rcases wrap_cases _ k3 with ⟨_, hw⟩ | ⟨_, hw⟩ <;> rw [hw] <;> omega
    · generalize ks.get ⟨i, h⟩ = k at k2 hal ⊢
      rcases wrap_cases _ k3 with ⟨_, hw⟩ | ⟨_, hw⟩ <;> rw [hw] <;>
        cases k <;> simp only [byteSize, byteAlign] at k2 hal ⊢ <;> omega
  · intro i h
    have hi : i < ks.length := Nat.lt_of_succ_lt h
    obtain ⟨k1, k2, k3⟩ := key i hi
    obtain ⟨j1, j2, j3⟩ := key (i + 1) h
    have hord := hold.2.2 i h
    have hmono : computeSize (ks.take (i + 1)) ≤ computeSize (ks.take (i + 1 + 1)) := by
      omega
    refine ⟨_, _, k1, j1, ?_⟩
    rcases wrap_cases _ k3 with ⟨_, hw⟩ | ⟨_, hw⟩ <;>
      rcases wrap_cases _ j3 with ⟨_, hv⟩ | ⟨_, hv⟩ <;> rw [hw, hv] <;> omega

/-- C3, amended, at the specification "cic": the fields are placed at 0, 4 and 8. -/
theorem fieldOffset_int_aligned_disjoint_witness :
    List.map (fieldOffset_int [char, int, char]) [0, 1, 2] = [some 0, some 4, some 8] ∧
    fieldOffset_int [char, int, char] 0 = some 0 :=
  ⟨by decide,
    (fieldOffset_int_aligned_disjoint [char, int, char] (by decide) (by decide)).1⟩

/-- C4 as stated fails: in the specification of `2 ^ 28` codes `l`, the source's `spec_size`
on the first `2 ^ 28 - 1` codes rounded up to 8 is `2 ^ 31 - 8`, and on all `2 ^ 28` codes it
is `2 ^ 64 - 2 ^ 31`, which is not that offset plus the size 8. -/
theorem spec_size_int_prefix_replay_fails :
    computeOffset_int (List.replicate (2 ^ 28) long) (2 ^ 28 - 1) = some (2 ^ 31 - 8) ∧
    spec_size_int (encode ((List.replicate (2 ^ 28) long).take (2 ^ 28 - 1 + 1))) =
      some (2 ^ 64 - 2 ^ 31) ∧
    2 ^ 31 - 8 + byteSize long ≠ 2 ^ 64 - 2 ^ 31 := by
  refine ⟨?_, ?_, by decide⟩
  · rw [computeOffset_int_replicate_long (2 ^ 28) (2 ^ 28 - 1) (by decide) (by decide)]
    decide
  · rw [take_replicate_of_le (2 ^ 28) (2 ^ 28 - 1 + 1) long (by decide),
      spec_size_int_encode_replicate_long (2 ^ 28 - 1 + 1) (by decide)]
    decide

/-- C4, amended: for every specification over the alphabet with fewer than `2 ^ 31` codes
whose size in unbounded integers is below `2 ^ 31` (as it is whenever there are fewer than
`2 ^ 28` codes) and every field index `i`, the source's `spec_size` on the first `i` codes
rounded up to the alignment of field `i` is `computeOffset` at `i`, and the source's
`spec_size` on the first `i + 1` codes is that offset plus the size of field `i`; and for
every specification, one past the end, with a virtual field of alignment 1, the replayed
offset is the source's `spec_size` of the whole specification. -/
theorem spec_size_int_prefix_replay (ks : List FieldKind) :
    (ks.length < 2 ^ 31 → computeSize ks < 2 ^ 31 → ∀ i, ∀ h : i < ks.length,
      computeOffset_int ks i = some (computeOffset ks i) ∧
      spec_size_int (encode (ks.take (i + 1))) =
        some (computeOffset ks i + byteSize (ks.get ⟨i, h⟩))) ∧
    computeOffset_int ks ks.length = spec_size_int (encode ks) := by
  have hold := spec_size_prefix_replay ks
  refine ⟨fun hlen hfit i h => ⟨computeOffset_int_eq_of_fit ks i hlen hfit, ?_⟩,
    computeOffset_int_length ks⟩
  have hle := computeSize_take_le ks (i + 1)
  rw [spec_size_int_encode_of_fit _ (length_take_lt ks (i + 1) _ hlen) (by omega),
    ← spec_size_encode, (hold.1 i h).2]

/-- C4, amended, at the specification "cic": the int is at offset 4 and ends at 8. -/
theorem spec_size_int_prefix_replay_witness :
    computeOffset [char, int, char] 1 = 4 ∧
    computeOffset_int [char, int, char] 1 = some (computeOffset [char, int, char] 1) ∧
    computeOffset_int [char, int, char] 3 = spec_size_int (encode [char, int, char]) :=
  ⟨by decide,
    ((spec_size_int_prefix_replay [char, int, char]).1 (by decide) (by decide)
      1 (by decide)).1,
    (spec_size_int_prefix_replay [char, int, char]).2⟩

/-- C7 as stated fails: the string of `2 ^ 31 - 1` characters `x` followed by `c` has the one
recognised code `c`, and on it the index `i` of the source's loop overflows, whereas on the
string "c" that is left when the unrecognised characters are removed the source returns 1. -/
theorem spec_size_int_fails_on_long_padding :
    spec_size_int (List.replicate (2 ^ 31 - 1) 'x' ++ ['c']) = none ∧
    (List.replicate (2 ^ 31 - 1) 'x' ++ ['c']).filter recognised = ['c'] ∧
    spec_size_int ['c'] = some 1 := by
  refine ⟨?_, ?_, by decide⟩
  · apply spec_size_int_eq_none
    rw [List.length_append, List.length_replicate, List.length_singleton]
    decide
  · rw [List.filter_append, filter_recognised_replicate_x, List.nil_append]
    decide

/-- C7, amended: for every string `s` shorter than `2 ^ 31` characters the source's
`spec_size` returns a value, the one it returns on `s` with every character outside the eight
codes removed; and inserting an unrecognised character at any position of a string, the
result being shorter than `2 ^ 31` characters, gives a string on which the source returns
the same value. -/
theorem spec_size_int_skips_unrecognised (s t : List Char) :
    (s.length < 2 ^ 31 →
      (∃ n, spec_size_int s = some n) ∧
      spec_size_int s = spec_size_int (s.filter recognised)) ∧
    (∀ c, recognised c = false → (s ++ c :: t).length < 2 ^ 31 →
      (∃ n, spec_size_int (s ++ c :: t) = some n) ∧
      spec_size_int (s ++ c :: t) = spec_size_int (s ++ t)) := by
  constructor
  · intro hlen
    have hf : (s.filter recognised).length < 2 ^ 31 :=
      Nat.lt_of_le_of_lt (List.length_filter_le _ _) hlen
    rw [spec_size_int_eq_foldl s hlen, spec_size_int_eq_foldl _ hf, foldl_step_int_filter]
    exact ⟨⟨_, rfl⟩, rfl⟩
  · intro c hc hlen
    have hlen2 : (s ++ t).length < 2 ^ 31 := by
      simp only [List.length_append, List.length_cons] at hlen ⊢
      omega
    rw [spec_size_int_eq_foldl _ hlen, spec_size_int_eq_foldl _ hlen2, List.foldl_append,
      List.foldl_cons, spec_size_step_int_unrecognised _ c hc, List.foldl_append]
    exact ⟨⟨_, rfl⟩, rfl⟩

/-- C7, amended, at the string "cxd": the source returns 16, as on "cd". -/
theorem spec_size_int_skips_unrecognised_witness :
    spec_size_int ['c', 'd'] = some 16 ∧
    spec_size_int (['c'] ++ 'x' :: ['d']) = spec_size_int (['c'] ++ ['d']) :=
  ⟨by decide,
    ((spec_size_int_skips_unrecognised ['c'] ['d']).2 'x' (by decide) (by decide)).2⟩

/-- C8 as stated fails: on the specification of `2 ^ 29` codes `l` the accumulator has wrapped
and the source's `spec_size` returns 0, whereas the sizes of the fields sum to `2 ^ 32`. -/
theorem spec_size_int_below_sumSizes :
    spec_size_int (encode (List.replicate (2 ^ 29) long)) = some 0 ∧
    sumSizes (List.replicate (2 ^ 29) long) = 2 ^ 32 := by
  constructor
  · rw [spec_size_int_encode_replicate_long (2 ^ 29) (by decide)]
    decide
  · rw [sumSizes_replicate_long]
    decide

/-- C8, amended: for every specification over the alphabet with fewer than `2 ^ 31` codes
whose size in unbounded integers is below `2 ^ 32` (as it is whenever there are fewer than
`2 ^ 29` codes), the source's `spec_size` returns a value that is at least the sum of the
sizes of the fields. -/
theorem sumSizes_le_spec_size_int (ks : List FieldKind) (hlen : ks.length < 2 ^ 31)
    (hfit : computeSize ks < 2 ^ 32) :
    ∃ n, spec_size_int (encode ks) = some n ∧ sumSizes ks ≤ n := by
  refine ⟨_, spec_size_int_encode_wrap ks hlen, ?_⟩
  have hsum := sumSizes_le_spec_size ks
  rw [spec_size_encode] at hsum
  rcases wrap_cases _ hfit with ⟨_, hw⟩ | ⟨_, hw⟩ <;> rw [hw] <;> omega

/-- C8, amended, at the specification "cd": the source returns 16 and the sizes sum to 9. -/
theorem sumSizes_le_spec_size_int_witness :
    sumSizes [char, double] = 9 ∧ spec_size_int (encode [char, double]) = some 16 ∧
    ∃ n, spec_size_int (encode [char, double]) = some n ∧ sumSizes [char, double] ≤ n :=
  ⟨by decide, by decide,
    sumSizes_le_spec_size_int [char, double] (by decide) (by decide)⟩

/-- C9 as stated fails: for the specification of `2 ^ 28` codes `l` the layout that puts field
`i` at `8 * i` satisfies the offset and alignment invariants and ends at `2 ^ 31`, below the
value `2 ^ 64 - 2 ^ 31` the source's `spec_size` returns. -/
theorem spec_size_int_not_minimal_after_wrap :
    ValidLayout (List.replicate (2 ^ 28) long) (fun i => 8 * i) ∧
    (fun i => 8 * i) (2 ^ 28 - 1) + byteSize long = 2 ^ 31 ∧
    spec_size_int (encode (List.replicate (2 ^ 28) long)) = some (2 ^ 64 - 2 ^ 31) ∧
    ¬ (2 ^ 64 - 2 ^ 31 ≤ 2 ^ 31) := by
  refine ⟨validLayout_replicate_long (2 ^ 28), by decide, ?_, by decide⟩
  rw [spec_size_int_encode_replicate_long (2 ^ 28) (by decide)]
  decide

/-- C9, amended: minimality of the layout. For every non-empty specification over the
alphabet with fewer than `2 ^ 31` codes whose size in unbounded integers is below `2 ^ 31`
(as it is whenever there are fewer than `2 ^ 28` codes), the source's `spec_size` returns a
value `n` such that the offsets at which the loop places the fields satisfy the offset and
alignment invariants and end at `n`, and every assignment of offsets that satisfies the
invariants ends at or after `n`. -/
theorem spec_size_int_minimal (ks : List FieldKind) (hne : ks ≠ [])
    (hlen : ks.length < 2 ^ 31) (hfit : computeSize ks < 2 ^ 31) :
    ∃ n, spec_size_int (encode ks) = some n ∧
      (ValidLayout ks (fieldOffset ks) ∧
        (∀ i, fieldOffset_int ks i = some (fieldOffset ks i)) ∧
        fieldOffset ks (ks.length - 1) + byteSize (ks.getLast hne) = n) ∧
      ∀ o : Nat → Nat, ValidLayout ks o →
        n ≤ o (ks.length - 1) + byteSize (ks.getLast hne) := by
  have hold := spec_size_minimal ks hne
  refine ⟨spec_size (encode ks), ?_, ⟨hold.1.1, ?_, hold.1.2⟩, hold.2⟩
  · rw [spec_size_int_encode_of_fit ks hlen hfit, spec_size_encode]
  · intro i
    exact fieldOffset_int_eq_of_fit ks i hlen hfit

/-- C9, amended, at the specification "ci" and the layout that puts the int at offset 8: that
layout satisfies the invariants and ends at 12, not before the 8 the source returns. -/
theorem spec_size_int_minimal_witness :
    ValidLayout [char, int] (fun i => 8 * i) ∧
    spec_size_int (encode [char, int]) = some 8 ∧
    ∃ n, spec_size_int (encode [char, int]) = some n ∧
      n ≤ (fun i => 8 * i) 1 + byteSize int :=
  have hv : ValidLayout [char, int] (fun i => 8 * i) := by
    constructor
    · intro i h
      have h2 : i < 2 := h
      interval_cases i <;> simp [byteAlign]
    · intro i h
      have h2 : i + 1 < 2 := h
      have h0 : i = 0 := by omega
      subst h0
      simp [byteSize]
  ⟨hv, by decide,
    match spec_size_int_minimal [char, int] (by decide) (by decide) (by decide) with
    | ⟨n, hn, _, hmin⟩ => ⟨n, hn, hmin (fun i => 8 * i) hv⟩⟩

/-- C16 as stated fails: the specification of `2 ^ 28` codes `l` has alignments that do not
increase and sizes that sum to `2 ^ 31`, and on it the source's `spec_size` returns
`2 ^ 64 - 2 ^ 31`. -/
theorem spec_size_int_ne_sumSizes_after_wrap :
    alignNonIncreasing (List.replicate (2 ^ 28) long) = true ∧
    sumSizes (List.replicate (2 ^ 28) long) = 2 ^ 31 ∧
    spec_size_int (encode (List.replicate (2 ^ 28) long)) = some (2 ^ 64 - 2 ^ 31) ∧
    (2 ^ 64 - 2 ^ 31 : Nat) ≠ 2 ^ 31 := by
  refine ⟨alignNonIncreasing_replicate (2 ^ 28) long, ?_, ?_, by decide⟩
  · rw [sumSizes_replicate_long]
    decide
  · rw [spec_size_int_encode_replicate_long (2 ^ 28) (by decide)]
    decide

/-- C16, amended: for every specification over the alphabet whose field alignments do not
increase from left to right and whose field sizes sum to less than `2 ^ 31` (as they do
whenever there are fewer than `2 ^ 28` codes), the source's `spec_size` inserts no padding:
it returns the sum of the sizes of the fields. -/
theorem spec_size_int_eq_sumSizes_of_ordered (ks : List FieldKind)
    (hord : alignNonIncreasing ks = true) (hfit : sumSizes ks < 2 ^ 31) :
    spec_size_int (encode ks) = some (sumSizes ks) := by
  have hlen := length_le_sumSizes ks
  have hsize := spec_size_eq_sumSizes_of_ordered ks hord
  rw [spec_size_encode] at hsize
  rw [spec_size_int_encode_of_fit ks (by omega) (by omega), hsize]

/-- C16, amended, at the specification "lisc": the source returns 8 + 4 + 2 + 1. -/
theorem spec_size_int_eq_sumSizes_of_ordered_witness :
    sumSizes [long, int, short, char] = 15 ∧
    spec_size_int (encode [long, int, short, char]) =
      some (sumSizes [long, int, short, char]) :=
  ⟨by decide,
    spec_size_int_eq_sumSizes_of_ordered [long, int, short, char] (by decide) (by decide)⟩

/-- C17 as stated fails: the string of `2 ^ 31` characters `x` has no recognised code, fewer
than `2 ^ 28`, and its unbounded `spec_size` is 0, but on it the index `i` of the source's
loop overflows and no value is returned. -/
theorem spec_size_int_index_overflow :
    (parseSpec (List.replicate (2 ^ 31) 'x')).length < 2 ^ 28 ∧
    spec_size (List.replicate (2 ^ 31) 'x') = 0 ∧
    spec_size_int (List.replicate (2 ^ 31) 'x') = none := by
  refine ⟨?_, spec_size_replicate_x _, ?_⟩
  · rw [parseSpec_replicate_x]
    decide
  · apply spec_size_int_eq_none
    rw [List.length_replicate]

/-- C17, amended: for every string, `spec_size` in unbounded integers is at most 8 times the
number of recognised codes; and when the string has fewer than `2 ^ 28` recognised codes and
fewer than `2 ^ 31` characters, after every prefix of the string the unbounded accumulator is
at most `2 ^ 31 - 1` and the 32-bit accumulator of the source holds the same number, and the
`size_t` the source returns is the unbounded value. -/
theorem spec_size_int_le_eight_mul (spec : List Char) :
    spec_size spec ≤ 8 * (parseSpec spec).length ∧
    ((parseSpec spec).length < 2 ^ 28 → spec.length < 2 ^ 31 →
      (∀ n, spec_size (spec.take n) ≤ 2 ^ 31 - 1 ∧
        spec_size_loop_int (spec.take n) 0 0 = some (spec_size (spec.take n) : Int)) ∧
      spec_size_int spec = some (spec_size spec)) := by
  have hle : ∀ s : List Char, spec_size s ≤ 8 * (parseSpec s).length := by
    intro s
    have h := spec_size_loop_le s 0 0 (Nat.le_refl _)
    rw [Nat.zero_add] at h
    exact h
  refine ⟨hle spec, fun hlt hlen => ⟨fun n => ?_, spec_size_int_eq spec hlt hlen⟩⟩
  have hn := parseSpec_take_length_le spec n
  have h1 := hle (spec.take n)
  have hl : (spec.take n).length < 2 ^ 31 := by
    rw [List.length_take]
    omega
  constructor
  · omega
  · exact spec_size_loop_int_eq (spec.take n) (by omega) hl

/-- C17, amended, at the string "cd": 16 is at most 8 * 2 and the source returns 16. -/
theorem spec_size_int_le_eight_mul_witness :
    spec_size ['c', 'd'] = 16 ∧ (parseSpec ['c', 'd']).length = 2 ∧
    spec_size_int ['c', 'd'] = some (spec_size ['c', 'd']) :=
  ⟨by decide, by decide,
    ((spec_size_int_le_eight_mul ['c', 'd']).2 (by decide) (by decide)).2⟩

/-- C18 as stated fails: on "l" the source's `spec_size` returns 8, and on "l" extended by
`2 ^ 29 - 1` further codes `l` the accumulator has wrapped and it returns 0. -/
theorem spec_size_int_not_monotone_after_wrap :
    spec_size_int ['l'] = some 8 ∧
    spec_size_int (['l'] ++ List.replicate (2 ^ 29 - 1) 'l') = some 0 ∧
    ¬ (8 ≤ 0) := by
  refine ⟨by decide, ?_, by decide⟩
  rw [List.singleton_append, ← List.replicate_succ,
    spec_size_int_replicate_l (2 ^ 29 - 1 + 1) (by decide)]
  decide

/-- C18, amended: for all strings `s` and `t` such that `s ++ t` is shorter than `2 ^ 31`
characters and its size in unbounded integers is below `2 ^ 32` (as it is whenever `s ++ t`
has fewer than `2 ^ 29` recognised codes), the source's `spec_size` returns a value on `s`
and on `s ++ t`, the first at most the second, and strictly less when `t` contains a
recognised code. -/
theorem spec_size_int_mono_append (s t : List Char) (hlen : (s ++ t).length < 2 ^ 31)
    (hfit : spec_size (s ++ t) < 2 ^ 32) :
    ∃ m n, spec_size_int s = some m ∧ spec_size_int (s ++ t) = some n ∧ m ≤ n ∧
      ((∃ c ∈ t, recognised c = true) → m < n) := by
  have hold := spec_size_mono_append s t
  have hs2 : s.length < 2 ^ 31 := by
    rw [List.length_append] at hlen
    omega
  have hsfit : spec_size s < 2 ^ 32 := Nat.lt_of_le_of_lt hold.1 hfit
  refine ⟨_, _, spec_size_int_eq_wrap s hs2, spec_size_int_eq_wrap (s ++ t) hlen, ?_, ?_⟩
  · have h1 := hold.1
    rcases wrap_cases _ hsfit with ⟨_, hw⟩ | ⟨_, hw⟩ <;>
      rcases wrap_cases _ hfit with ⟨_, hv⟩ | ⟨_, hv⟩ <;> rw [hw, hv] <;> omega
  · intro hc
    have h2 := hold.2 hc
    rcases wrap_cases _ hsfit with ⟨_, hw⟩ | ⟨_, hw⟩ <;>
      rcases wrap_cases _ hfit with ⟨_, hv⟩ | ⟨_, hv⟩ <;> rw [hw, hv] <;> omega

/-- C18, amended, at "c" extended by "xi": the value the source returns grows from 1 to 8. -/
theorem spec_size_int_mono_append_witness :
    spec_size_int ['c'] = some 1 ∧ spec_size_int (['c'] ++ ['x', 'i']) = some 8 ∧
    ∃ m n, spec_size_int ['c'] = some m ∧ spec_size_int (['c'] ++ ['x', 'i']) = some n ∧
      m ≤ n ∧ ((∃ c ∈ ['x', 'i'], recognised c = true) → m < n) :=
  ⟨by decide, by decide, spec_size_int_mono_append ['c'] ['x', 'i'] (by decide) (by decide)⟩

end CSizer
